import Mathlib

/-!
Verification of the pbxproj format engine of `project.py` (class `XCodeProject`):
its PLY-based tokenizer (`XCodeProject.Lex`), the stack-based structural parser
(`XCodeProject.parse_lex`), and the serializer (`XCodeProject.Writer`,
`XCodeProject.recursive_write`, `XCodeProject.export_project`).

The tokenizer is embedded following PLY's documented `token()` semantics: at each
position, characters of `t_ignore` are skipped first; otherwise the function rules
are attempted in their order of definition in the source file, each matching
greedily, and the first rule whose regular expression matches consumes its match;
if no rule matches, `t_error` skips one character. The parser and serializer are
embedded as explicit state-passing translations of the Python code; in-place
mutation of the container being built becomes rebuilding the top stack frame, and
the store-into-parent that Python performs by reference when a container is opened
is performed when the container is closed (the parent is unreachable in between,
so the two are equivalent, with the ordered-dict overwrite keeping the original
key position).
-/

namespace PyXcode

/-- The tab character (in `t_ignore`). -/
def tabC : Char := Char.ofNat 9

/-- The newline character (in `t_ignore`). -/
def nlC : Char := Char.ofNat 10

/-- The double-quote character (rule `t_QUOTE`). -/
def quoteC : Char := Char.ofNat 34

/-- The backslash character (first byte of `t_QUOTE_LITERAL` / `t_NEWLINE_LITERAL`). -/
def bslashC : Char := Char.ofNat 92

/-- The opening-brace character (rule `t_LBRACE`). -/
def obC : Char := '\x7b'

/-- The closing-brace character (rule `t_RBRACE`). -/
def cbC : Char := '\x7d'

/-- Python `\s` for the byte strings this lexer processes:
space, tab, newline, vertical tab, form feed, carriage return (rule `t_SPACE`). -/
def isPySpace (c : Char) : Bool :=
  let n := c.toNat
  n == 32 || n == 9 || n == 10 || n == 11 || n == 12 || n == 13

/-- Membership in the bare-word character class of rule `t_WORD`, the regex
`[!|#-'|\*|\+|\--:|<|>-\[|\]-z|\||~]+`: `!`, `|`, `#` to `'`, `*`, `+`,
`-` to `:`, `<`, `>` to `[`, `]` to `z`, `~` (every printable ASCII character
except space, `"`, `(`, `)`, `,`, `;`, `=`, `\`, `{`, `}`). -/
def isWordChar (c : Char) : Bool :=
  let n := c.toNat
  n == 33 || (35 ≤ n && n ≤ 39) || n == 42 || n == 43 || (45 ≤ n && n ≤ 58) ||
    n == 60 || (62 ≤ n && n ≤ 91) || (93 ≤ n && n ≤ 122) || n == 124 || n == 126

/-- The seven single-character structural-punctuation rules
`t_SEMICOLON`, `t_LBRACE`, `t_RBRACE`, `t_COMMA`, `t_LPAREN`, `t_RPAREN`, `t_EQUALS`. -/
def isPunct (c : Char) : Bool :=
  c == ';' || c == obC || c == cbC || c == ',' || c == '(' || c == ')' || c == '='

/-- The tokens that `parse_lex` can receive from the lexer. `word` carries the
exact lexeme (`t.value`), quotes and escape sequences included. -/
inductive Tok where
  | lbrace
  | rbrace
  | lparen
  | rparen
  | comma
  | semicolon
  | equals
  | word (s : List Char)
deriving Repr, DecidableEq

/-- Mapping a structural-punctuation character to its token. -/
def punctTok (c : Char) : Tok :=
  if c == ';' then .semicolon
  else if c == obC then .lbrace
  else if c == cbC then .rbrace
  else if c == ',' then .comma
  else if c == '(' then .lparen
  else if c == ')' then .rparen
  else .equals

/-- The lexer-wide state of `XCodeProject.Lex`: `comment_open`, `string`
(the quoted-string accumulator) and `string_open`. -/
structure LexSt where
  comment_open : Bool
  string : List Char
  string_open : Bool
deriving Repr, DecidableEq

/-- The state a fresh `Lex` instance starts in (`__init__`). -/
def cleanSt : LexSt := ⟨false, [], false⟩

/-- Which lexer rule fires at the current position. PLY tries the `t_ignore`
short-circuit for tab and newline first, then the function rules in their order
of definition in the source — `t_SPACE`, `t_QUOTE`, `t_QUOTE_LITERAL`,
`t_NEWLINE_LITERAL`, the punctuation rules, `t_LCOMMENT`, `t_RCOMMENT`,
`t_COMMENT`, `t_WORD` — and if none matches, `t_error` skips one character. -/
inductive Rule where
  | ignore
  | space
  | quote
  | quoteLit
  | nlLit
  | punct
  | lcomment
  | rcomment
  | comment
  | wordR
  | err
deriving Repr, DecidableEq

/-- The rule that fires on current character `c` with remaining input `cs`,
following the priority order described at `Rule`. A backslash followed by
neither `"` nor `n` (or at end of input) matches no rule, so it falls to
`t_error` (`err`), as does any other unmatched character. -/
def lexClass (c : Char) (cs : List Char) : Rule :=
  if c == tabC || c == nlC then .ignore
  else if isPySpace c then .space
  else if c == quoteC then .quote
  else if c == bslashC then
    match cs with
    | d :: _ => if d == quoteC then .quoteLit else if d == 'n' then .nlLit else .err
    | [] => .err
  else if isPunct c then .punct
  else if c == '/' && cs.head? == some '*' then .lcomment
  else if c == '*' && cs.head? == some '/' then .rcomment
  else if c == '/' && cs.head? == some '/' then .comment
  else if isWordChar c then .wordR
  else .err

/-- One iteration of PLY's `token()` loop: given the lexer state, the current
character and the rest of the input, returns the tokens this step emits (none
or one), the new lexer state, and the remaining input. Each case is the body
of the corresponding rule function of `XCodeProject.Lex`, consuming that
rule's greedy regex match. -/
def lexStep (st : LexSt) (c : Char) (cs : List Char) : List Tok × LexSt × List Char :=
  match lexClass c cs with
  | .ignore => ([], st, cs)
  | .space =>
    ([], if st.string_open then { st with string := st.string ++ [c] } else st, cs)
  | .quote =>
    if st.comment_open then ([], st, cs)
    else if st.string_open then
      ([Tok.word (st.string ++ [quoteC])],
        { st with string := st.string ++ [quoteC], string_open := false }, cs)
    else ([], { st with string := [quoteC], string_open := true }, cs)
  | .quoteLit =>
    if st.comment_open then ([], st, cs.tail)
    else if st.string_open then
      ([], { st with string := st.string ++ [bslashC, quoteC] }, cs.tail)
    else ([Tok.word [bslashC, quoteC]], st, cs.tail)
  | .nlLit =>
    if st.string_open then ([], { st with string := st.string ++ [bslashC, 'n'] }, cs.tail)
    else ([], st, cs.tail)
  | .punct =>
    if st.comment_open then ([], st, cs)
    else if st.string_open then ([], { st with string := st.string ++ [c] }, cs)
    else ([punctTok c], st, cs)
  | .lcomment => ([], { st with comment_open := true }, cs.tail)
  | .rcomment => ([], { st with comment_open := false }, cs.tail)
  | .comment => ([], st, cs.tail.dropWhile (fun d => !(d == nlC)))
  | .wordR =>
    if st.comment_open then ([], st, cs.dropWhile isWordChar)
    else if st.string_open then
      ([], { st with string := st.string ++ (c :: cs.takeWhile isWordChar) },
        cs.dropWhile isWordChar)
    else ([Tok.word (c :: cs.takeWhile isWordChar)], st, cs.dropWhile isWordChar)
  | .err => ([], st, cs)

/-- PLY's `token()` loop over the whole input, with fuel for termination (every
step consumes at least one character, so fuel equal to the input length
suffices; see `lexRun` and `lexF_congr`). -/
def lexF : Nat → LexSt → List Char → List Tok
  | 0, _, _ => []
  | _ + 1, _, [] => []
  | fuel + 1, st, c :: cs =>
    (lexStep st c cs).1 ++ lexF fuel (lexStep st c cs).2.1 (lexStep st c cs).2.2

/-- Running the lexer from a given state over a whole input. -/
def lexRun (st : LexSt) (l : List Char) : List Tok :=
  lexF l.length st l

/-- Tokenizing an input from the fresh-lexer state, as `parse_project` does. -/
def lexChars (l : List Char) : List Tok :=
  lexRun cleanSt l

/-- Tokenizing a Lean string literal (convenience wrapper over `lexChars`). -/
def lexStr (s : String) : List Tok :=
  lexChars s.data

theorem lexF_nil (n : Nat) (st : LexSt) : lexF n st [] = [] := by
  cases n <;> rfl

/-- Each lexer step consumes at least one character: the remaining input that
`lexStep` returns is never longer than the rest it was given. -/
theorem lexStep_rest_le (st : LexSt) (c : Char) (cs : List Char) :
    (lexStep st c cs).2.2.length ≤ cs.length := by
  have hdw : (cs.dropWhile isWordChar).length ≤ cs.length :=
    (cs.dropWhile_sublist isWordChar).length_le
  have htl : cs.tail.length ≤ cs.length := cs.tail_sublist.length_le
  have htld : (cs.tail.dropWhile (fun d => !(d == nlC))).length ≤ cs.length :=
    le_trans ((cs.tail.dropWhile_sublist _).length_le) htl
  cases hcl : lexClass c cs <;>
    simp only [lexStep, hcl] <;> (try split_ifs) <;> simp_all

/-- Fuel does not matter once it is at least the input length. -/
theorem lexF_congr :
    ∀ (n m : Nat) (st : LexSt) (l : List Char),
      l.length ≤ n → l.length ≤ m → lexF n st l = lexF m st l := by
  intro n
  induction n with
  | zero =>
    intro m st l hn _
    have : l = [] := List.length_eq_zero.mp (Nat.le_zero.mp hn)
    subst this
    rw [lexF_nil, lexF_nil]
  | succ n ih =>
    intro m st l hn hm
    match l with
    | [] => rw [lexF_nil, lexF_nil]
    | c :: cs =>
      match m with
      | 0 => simp at hm
      | m + 1 =>
        have hrest := lexStep_rest_le st c cs
        have b1 : cs.length ≤ n := by simp at hn; omega
        have b1' : cs.length ≤ m := by simp at hm; omega
        show (lexStep st c cs).1 ++ lexF n _ _ = (lexStep st c cs).1 ++ lexF m _ _
        exact congrArg _ (ih m _ _ (le_trans hrest b1) (le_trans hrest b1'))

/-- Unfolding one lexer step at the `lexRun` level: the tokens this step emits,
followed by the lexer continuing from the step's state on the step's remainder. -/
theorem lexRun_cons (st : LexSt) (c : Char) (cs : List Char) :
    lexRun st (c :: cs) =
      (lexStep st c cs).1 ++ lexRun (lexStep st c cs).2.1 (lexStep st c cs).2.2 := by
  show lexF (cs.length + 1) st (c :: cs) = _
  show (lexStep st c cs).1 ++ lexF cs.length _ _ = _
  exact congrArg _ (lexF_congr _ _ _ _ (lexStep_rest_le st c cs) le_rfl)

theorem lexRun_nil (st : LexSt) : lexRun st [] = [] := rfl

/-- The Python values `parse_lex` builds and `recursive_write` consumes:
strings (scalar lexemes), `None` (Python's `None`, which reaches containers
through `cur_obj` when it is empty, or is placed by collaborators), ordered
dictionaries (as insertion-ordered association lists whose keys are Python
strings or `None`), and lists. -/
inductive PyVal where
  | str (s : List Char)
  | pynone
  | dict (entries : List (Option (List Char) × PyVal))
  | arr (elems : List PyVal)
deriving Repr

/-- Assignment `d[k] = v` on an insertion-ordered dictionary: an existing key
keeps its original position and gets the new value; a new key is appended. -/
def odInsert (l : List (Option (List Char) × PyVal)) (k : Option (List Char)) (v : PyVal) :
    List (Option (List Char) × PyVal) :=
  match l with
  | [] => [(k, v)]
  | (k0, v0) :: rest => if k0 = k then (k0, v) :: rest else (k0, v0) :: odInsert rest k v

/-- Lookup `d.get(k)` on an insertion-ordered dictionary. -/
def odGet (l : List (Option (List Char) × PyVal)) (k : Option (List Char)) : Option PyVal :=
  match l with
  | [] => Option.none
  | (k0, v0) :: rest => if k0 = k then some v0 else odGet rest k

/-- The keys of an insertion-ordered dictionary, in order. -/
def odKeys (l : List (Option (List Char) × PyVal)) : List (Option (List Char)) :=
  l.map Prod.fst

/-- The Python exceptions the engine can raise: `TypeError` (indexing a list
with a string key), `IndexError` (`obj_stack[0]` or `pop(0)` on an empty
stack), `AttributeError` (`append` on a dict, or iterating `items()` of a
non-dict), the explicit `Exception('Invalid assignment operation...')` of
`parse_lex`, and the explicit `Exception('Bad variable write!...')` of
`recursive_write`. -/
inductive PyErr where
  | typeError
  | indexError
  | attributeError
  | invalidAssignment
  | invalidValueType
deriving Repr, DecidableEq

/-- Python truthiness test `not cur_obj` for the pending register:
true for `None` and for the empty string. -/
def falsy : Option (List Char) → Bool
  | Option.none => true
  | some s => s.isEmpty

/-- The Python value of the pending register (`None` or a string). -/
def optToVal : Option (List Char) → PyVal
  | Option.none => .pynone
  | some s => .str s

/-- A container being built on the parser's stack. -/
inductive Container where
  | cdict (entries : List (Option (List Char) × PyVal))
  | carr (elems : List PyVal)
deriving Repr

/-- The finished value of a container. -/
def toVal : Container → PyVal
  | .cdict l => .dict l
  | .carr l => .arr l

/-- A stack frame of `parse_lex`: the container under construction, and how it
was stored into its parent when it was opened — `some k` if at open time the
stack was nonempty (Python executed `obj_stack[0][cur_obj] = new_obj` with
`cur_obj = k` on the dict below), `none` for a bottom frame. Python
stores the child by reference at open; this embedding performs the store when
the frame is popped, which is equivalent because the parent cannot be touched
while the child is open, and the ordered-dict overwrite keeps the original
key position either way. -/
structure Frame where
  cont : Container
  att : Option (Option (List Char))
deriving Repr

/-- Store a popped frame's finished container into the frame below it. A frame
with `att = some k` was opened over a dict (an array top raises `TypeError` at
open, see `parseLex`), so the dict assignment is the only reachable case; a
bottom frame (`att = none`) was never stored anywhere. -/
def attachUp (g : Frame) (f : Frame) : Frame :=
  match f.att with
  | Option.none => g
  | some k =>
    match g.cont with
    | .cdict l => { g with cont := .cdict (odInsert l k (toVal f.cont)) }
    | .carr _ => g

/-- The token loop of `XCodeProject.parse_lex`, one case per token type.
`stack` is `obj_stack` (head = `obj_stack[0]`), `cur` is `cur_obj`. Exhausting
the tokens breaks out of the loop without error and without a document
(`.ok none`: the root is only assigned when the final CloseBrace pops the last
frame, in which case the loop stops with `.ok (some doc)` and any trailing
tokens are discarded). Python errors are modelled as `.error`: see `PyErr`. -/
def parseLex : List Tok → List Frame → Option (List Char) → Except PyErr (Option PyVal)
  | [], _, _ => .ok Option.none
  | t :: ts, stack, cur =>
    match t with
    | .lbrace =>
      match stack with
      | [] => parseLex ts [⟨.cdict [], Option.none⟩] Option.none
      | f :: _ =>
        match f.cont with
        | .carr _ => .error .typeError
        | .cdict _ => parseLex ts (⟨.cdict [], some cur⟩ :: stack) Option.none
    | .rbrace =>
      match stack with
      | [] => .error .indexError
      | f :: rest =>
        match rest with
        | [] => .ok (some (toVal f.cont))
        | g :: gs => parseLex ts (attachUp g f :: gs) cur
    | .lparen =>
      match stack with
      | [] => .error .indexError
      | f :: _ =>
        match f.cont with
        | .carr _ => .error .typeError
        | .cdict _ => parseLex ts (⟨.carr [], some cur⟩ :: stack) Option.none
    | .rparen =>
      match cur with
      | some s =>
        match stack with
        | [] => .error .indexError
        | f :: rest =>
          match f.cont with
          | .cdict _ => .error .attributeError
          | .carr l =>
            match rest with
            | [] => parseLex ts [] Option.none
            | g :: gs =>
              parseLex ts (attachUp g { f with cont := .carr (l ++ [PyVal.str s]) } :: gs)
                Option.none
      | Option.none =>
        match stack with
        | [] => .error .indexError
        | f :: rest =>
          match rest with
          | [] => parseLex ts [] Option.none
          | g :: gs => parseLex ts (attachUp g f :: gs) Option.none
    | .comma =>
      match stack with
      | [] => .error .indexError
      | f :: rest =>
        match f.cont with
        | .cdict _ => .error .attributeError
        | .carr l => parseLex ts ({ f with cont := .carr (l ++ [optToVal cur]) } :: rest)
            Option.none
    | .semicolon => parseLex ts stack cur
    | .equals => if falsy cur then .error .invalidAssignment else parseLex ts stack cur
    | .word w =>
      if falsy cur then parseLex ts stack (some w)
      else
        match stack with
        | [] => .error .indexError
        | f :: rest =>
          match f.cont with
          | .carr _ => .error .typeError
          | .cdict l => parseLex ts ({ f with cont := .cdict (odInsert l cur (.str w)) } :: rest)
              Option.none

/-- Parsing a token stream from the initial parser state
(empty stack, empty pending register). -/
def parseToks (ts : List Tok) : Except PyErr (Option PyVal) :=
  parseLex ts [] Option.none

/-- The tokenize-and-parse pipeline on raw input characters. -/
def parseChars (l : List Char) : Except PyErr (Option PyVal) :=
  parseToks (lexChars l)

/-- The tokenize-and-parse pipeline on a Lean string literal. -/
def parseDoc (s : String) : Except PyErr (Option PyVal) :=
  parseChars s.data

/-- The state of the helper class `XCodeProject.Writer`: the current
indentation depth and the condensed flag. The bytes written to the project
file are returned alongside by the emission functions below. -/
structure Writer where
  indent : Nat
  condensed : Bool
deriving Repr, DecidableEq

/-- A run of tab characters (`'\t' * self.indent`). -/
def tabs (n : Nat) : List Char :=
  List.replicate n tabC

/-- Output of `Writer.write_indent`: the indentation tabs, suppressed while
condensed. -/
def wIndent (w : Writer) : List Char :=
  if w.condensed then [] else tabs w.indent

/-- Output of `Writer.write_newline`: a newline, suppressed while condensed. -/
def wNewline (w : Writer) : List Char :=
  if w.condensed then [] else [nlC]

/-- Escaping of one character inside a Python 2 single-quoted string `repr`. -/
def pyReprChar (c : Char) : List Char :=
  if c == bslashC then [bslashC, bslashC]
  else if c.toNat == 39 then [bslashC, Char.ofNat 39]
  else if c == nlC then [bslashC, 'n']
  else if c == tabC then [bslashC, 't']
  else if c.toNat == 13 then [bslashC, 'r']
  else [c]

/-- Python 2 `repr` of a string, modelled in CPython's default single-quote
form (the quote-preference subtlety of `repr` for strings containing quotes
is not modelled; no theorem in this development depends on it). -/
def pyReprStr (s : List Char) : List Char :=
  Char.ofNat 39 :: (s.map pyReprChar).flatten ++ [Char.ofNat 39]

/-- Python 2 `repr` of a dict key (a string or `None`). -/
def pyReprKey (k : Option (List Char)) : List Char :=
  match k with
  | Option.none => "None".data
  | some s => pyReprStr s

mutual

/-- Python 2 `repr` of a value, as produced when `'{}, '.format(v)` receives a
container; no theorem in this development depends on this case — the parser
never places a container inside a list, so `write_list_entry` only ever
formats strings (and `None`) on engine-built documents. -/
def pyRepr : PyVal → List Char
  | .str s => pyReprStr s
  | .pynone => "None".data
  | .dict l => "OrderedDict([".data ++ pyReprPairs l ++ "])".data
  | .arr l => '[' :: pyReprElems l ++ [']']

/-- Comma-separated `repr` of the key/value pairs of an ordered dict. -/
def pyReprPairs : List (Option (List Char) × PyVal) → List Char
  | [] => []
  | [(k, v)] => '(' :: pyReprKey k ++ ", ".data ++ pyRepr v ++ [')']
  | (k, v) :: rest =>
    '(' :: pyReprKey k ++ ", ".data ++ pyRepr v ++ [')'] ++ ", ".data ++
      pyReprPairs rest

/-- Comma-separated `repr` of the elements of a list. -/
def pyReprElems : List PyVal → List Char
  | [] => []
  | [v] => pyRepr v
  | v :: rest => pyRepr v ++ ", ".data ++ pyReprElems rest

end

/-- Python 2 `str()` of a value, as used by `'{}, '.format(v)` in
`write_list_entry` and by `'%s'` in `write_var` / `write_dict` / `write_list`:
a string formats as itself, `None` as `None`, containers via `pyRepr`. -/
def pyFormat : PyVal → List Char
  | .str s => s
  | .pynone => "None".data
  | .dict l => pyRepr (.dict l)
  | .arr l => pyRepr (.arr l)

/-- Formatting of a key by `'%s'` / `'{}'` (keys are strings or `None`). -/
def fmtKey (k : Option (List Char)) : List Char :=
  pyFormat (optToVal k)

/-- Output of the `write_list_entry` calls `recursive_write` performs for the
elements of a list value: for each element, indentation, `'{}, '.format(v)`,
and a newline (the latter two suppressed while condensed). -/
def writeElems (elems : List PyVal) (w : Writer) : List Char :=
  match elems with
  | [] => []
  | v :: rest => (wIndent w ++ pyFormat v ++ ", ".data ++ wNewline w) ++ writeElems rest w

/-- The condensation test of `recursive_write`:
`v.get('isa', '') in ['PBXBuildFile', 'PBXFileReference']`. -/
def isaCondensed (es : List (Option (List Char) × PyVal)) : Bool :=
  match odGet es (some "isa".data) with
  | some (.str s) => s == "PBXBuildFile".data || s == "PBXFileReference".data
  | _ => false

mutual

/-- `XCodeProject.recursive_write`: returns the bytes written to the file in
order — including everything written before an exception — together with the
writer's final state, or the exception raised. On a list it writes the
formatted entries (`write_list_entry` never recurses); on a dict it runs the
`items()` loop (`writeEntries`); any other value would hit `obj.items()` and
raise `AttributeError` (the callers only ever pass containers). -/
def recursiveWrite : PyVal → Writer → List Char × Except PyErr Writer
  | .arr elems, w => (writeElems elems w, .ok w)
  | .dict entries, w => writeEntries entries w
  | .str _, _ => ([], .error .attributeError)
  | .pynone, _ => ([], .error .attributeError)

/-- The `for k, v in obj.items()` loop of `recursive_write`: an OrderedDict
value may switch the writer into condensed mode first (`write_indent` running
before the flag is set), then `write_dict`, recursion, `end_dict`, and for a
condensing entry the flag reset plus one newline; a list value gets
`write_list`, the formatted elements, `end_list`; a string value gets
`write_var`; anything else raises the `Bad variable write!` exception before
writing anything for that entry. -/
def writeEntries : List (Option (List Char) × PyVal) → Writer →
    List Char × Except PyErr Writer
  | [], w => ([], .ok w)
  | (k, v) :: rest, w =>
    match v with
    | .dict ve =>
      let condensed := isaCondensed ve
      let pre := if condensed then wIndent w else []
      let w1 := if condensed then { w with condensed := true } else w
      let hdr := wIndent w1 ++ fmtKey k ++ " = \x7b ".data ++ wNewline w1
      let w2 := { w1 with indent := w1.indent + 1 }
      match recursiveWrite (.dict ve) w2 with
      | (body, .error e) => (pre ++ hdr ++ body, .error e)
      | (body, .ok w3) =>
        let w4 := { w3 with indent := w3.indent - 1 }
        let ftr := wIndent w4 ++ "\x7d; ".data ++ wNewline w4
        let w5 := if condensed then { w4 with condensed := false } else w4
        let post := if condensed then wNewline w5 else []
        match writeEntries rest w5 with
        | (out, res) => (pre ++ hdr ++ body ++ ftr ++ post ++ out, res)
    | .arr ve =>
      let hdr := wIndent w ++ fmtKey k ++ " = ( ".data ++ wNewline w
      let w2 := { w with indent := w.indent + 1 }
      match recursiveWrite (.arr ve) w2 with
      | (body, .error e) => (hdr ++ body, .error e)
      | (body, .ok w3) =>
        let w4 := { w3 with indent := w3.indent - 1 }
        let ftr := wIndent w4 ++ "); ".data ++ wNewline w4
        match writeEntries rest w4 with
        | (out, res) => (hdr ++ body ++ ftr ++ out, res)
    | .str s =>
      let line := wIndent w ++ fmtKey k ++ " = ".data ++ s ++ "; ".data ++ wNewline w
      match writeEntries rest w with
      | (out, res) => (line ++ out, res)
    | .pynone => ([], .error .invalidValueType)

end

/-- The fixed two-line header `Writer.__init__` writes on construction:
`// !$*UTF8*$!` and the opening brace. -/
def headerChars : List Char :=
  "// !$*UTF8*$!".data ++ [nlC, obC, nlC]

/-- `XCodeProject.export_project`: opening the destination with mode `wb`
truncates it, `Writer.__init__` immediately writes the header, then
`recursive_write` runs on the root object at indent 1 and condensed off, and
on success `Writer.close` writes the closing-brace line. Returns the bytes the
destination file holds afterwards, and the exception if one was raised
mid-write (in which case everything already written stays in the file). -/
def exportProject (doc : PyVal) : List Char × Option PyErr :=
  match recursiveWrite doc { indent := 1, condensed := false } with
  | (out, .ok _) => (headerChars ++ out ++ [cbC, nlC], Option.none)
  | (out, .error e) => (headerChars ++ out, some e)

/-- Serialization as a function to the full output bytes
(an error if `recursive_write` raises). -/
def serializeDoc (doc : PyVal) : Except PyErr (List Char) :=
  match exportProject doc with
  | (out, Option.none) => .ok out
  | (_, some e) => .error e

/-- Serialize-then-parse round trip on a document. -/
def roundTrip (doc : PyVal) : Except PyErr (Option PyVal) :=
  match serializeDoc doc with
  | .ok out => parseChars out
  | .error e => .error e

/-- Whether a list is empty or starts with a character outside the bare-word
class (so a greedy word-regex match cannot extend into it). -/
def headNotWord (l : List Char) : Bool :=
  match l with
  | [] => true
  | c :: _ => !isWordChar c

/-- Whether a list starts with the two given characters. -/
def startsTwo (l : List Char) (a b : Char) : Bool :=
  match l with
  | c :: d :: _ => c == a && d == b
  | _ => false

theorem char_ne_of_toNat_ne {c d : Char} (h : c.toNat ≠ d.toNat) : c ≠ d :=
  fun he => h (congrArg Char.toNat he)

theorem isWordChar_nat {c : Char} (h : isWordChar c = true) :
    c.toNat = 33 ∨ (35 ≤ c.toNat ∧ c.toNat ≤ 39) ∨ c.toNat = 42 ∨ c.toNat = 43 ∨
      (45 ≤ c.toNat ∧ c.toNat ≤ 58) ∨ c.toNat = 60 ∨ (62 ≤ c.toNat ∧ c.toNat ≤ 91) ∨
      (93 ≤ c.toNat ∧ c.toNat ≤ 122) ∨ c.toNat = 124 ∨ c.toNat = 126 := by
  simp only [isWordChar, Bool.or_eq_true, Bool.and_eq_true, beq_iff_eq,
    decide_eq_true_eq] at h
  tauto

/-- A bare-word character fails every lexer-rule test that precedes `t_WORD`
except the comment lookaheads (handled separately). -/
theorem wordChar_facts {c : Char} (h : isWordChar c = true) :
    (c == tabC || c == nlC) = false ∧ isPySpace c = false ∧ (c == quoteC) = false ∧
      (c == bslashC) = false ∧ isPunct c = false := by
  have hn := isWordChar_nat h
  have e1 : tabC.toNat = 9 := rfl
  have e2 : nlC.toNat = 10 := rfl
  have e3 : quoteC.toNat = 34 := rfl
  have e4 : bslashC.toNat = 92 := rfl
  have e5 : (';' : Char).toNat = 59 := rfl
  have e6 : obC.toNat = 123 := rfl
  have e7 : cbC.toNat = 125 := rfl
  have e8 : (',' : Char).toNat = 44 := rfl
  have e9 : ('(' : Char).toNat = 40 := rfl
  have e10 : (')' : Char).toNat = 41 := rfl
  have e11 : ('=' : Char).toNat = 61 := rfl
  refine ⟨?_, ?_, ?_, ?_, ?_⟩
  · simp only [Bool.or_eq_false_iff, beq_eq_false_iff_ne]
    exact ⟨char_ne_of_toNat_ne (by omega), char_ne_of_toNat_ne (by omega)⟩
  · simp only [isPySpace]
    simp only [Bool.or_eq_false_iff, beq_eq_false_iff_ne]
    omega
  · exact beq_eq_false_iff_ne.mpr (char_ne_of_toNat_ne (by omega))
  · exact beq_eq_false_iff_ne.mpr (char_ne_of_toNat_ne (by omega))
  · simp only [isPunct, Bool.or_eq_false_iff, beq_eq_false_iff_ne]
    refine ⟨⟨⟨⟨⟨⟨?_, ?_⟩, ?_⟩, ?_⟩, ?_⟩, ?_⟩, ?_⟩ <;> exact char_ne_of_toNat_ne (by omega)

/-- The rule classifier selects `t_WORD` on a bare-word character, provided
no comment delimiter starts at this position. -/
theorem lexClass_wordR {c : Char} (cs : List Char) (h : isWordChar c = true)
    (h1 : (c == '/' && cs.head? == some '*') = false)
    (h2 : (c == '*' && cs.head? == some '/') = false)
    (h3 : (c == '/' && cs.head? == some '/') = false) :
    lexClass c cs = .wordR := by
  obtain ⟨f1, f2, f3, f4, f5⟩ := wordChar_facts h
  simp [lexClass, f1, f2, f3, f4, f5, h1, h2, h3, h]

theorem isPunct_nat {c : Char} (h : isPunct c = true) :
    c.toNat = 59 ∨ c.toNat = 123 ∨ c.toNat = 125 ∨ c.toNat = 44 ∨ c.toNat = 40 ∨
      c.toNat = 41 ∨ c.toNat = 61 := by
  simp only [isPunct, Bool.or_eq_true, beq_iff_eq] at h
  rcases h with ((((((rfl | rfl) | rfl) | rfl) | rfl) | rfl) | rfl) <;> decide

/-- A structural-punctuation character fails every lexer-rule test that
precedes its own rule. -/
theorem punctChar_facts {c : Char} (h : isPunct c = true) :
    (c == tabC || c == nlC) = false ∧ isPySpace c = false ∧ (c == quoteC) = false ∧
      (c == bslashC) = false := by
  have hn := isPunct_nat h
  have e1 : tabC.toNat = 9 := rfl
  have e2 : nlC.toNat = 10 := rfl
  have e3 : quoteC.toNat = 34 := rfl
  have e4 : bslashC.toNat = 92 := rfl
  refine ⟨?_, ?_, ?_, ?_⟩
  · simp only [Bool.or_eq_false_iff, beq_eq_false_iff_ne]
    exact ⟨char_ne_of_toNat_ne (by omega), char_ne_of_toNat_ne (by omega)⟩
  · simp only [isPySpace]
    simp only [Bool.or_eq_false_iff, beq_eq_false_iff_ne]
    omega
  · exact beq_eq_false_iff_ne.mpr (char_ne_of_toNat_ne (by omega))
  · exact beq_eq_false_iff_ne.mpr (char_ne_of_toNat_ne (by omega))

/-- The rule classifier selects the punctuation rule on a punctuation
character (punctuation is classified before the comment rules). -/
theorem lexClass_punct {c : Char} (cs : List Char) (h : isPunct c = true) :
    lexClass c cs = .punct := by
  obtain ⟨f1, f2, f3, f4⟩ := punctChar_facts h
  simp [lexClass, f1, f2, f3, f4, h]

/-- The rule classifier selects `t_SPACE` on non-tab non-newline whitespace. -/
theorem lexClass_space {c : Char} (cs : List Char) (h : isPySpace c = true)
    (h0 : (c == tabC || c == nlC) = false) :
    lexClass c cs = .space := by
  simp [lexClass, h, h0]

/-- Tab bytes are in `t_ignore`: skipped in every state, never appended. -/
theorem lexRun_tab (st : LexSt) (cs : List Char) :
    lexRun st (tabC :: cs) = lexRun st cs := by
  have hcl : lexClass tabC cs = .ignore := by simp [lexClass]
  rw [lexRun_cons]; simp [lexStep, hcl]

/-- Newline bytes are in `t_ignore`: skipped in every state, never appended. -/
theorem lexRun_nl (st : LexSt) (cs : List Char) :
    lexRun st (nlC :: cs) = lexRun st cs := by
  have hcl : lexClass nlC cs = .ignore := by simp [lexClass]
  rw [lexRun_cons]; simp [lexStep, hcl]

/-- Rule `t_SPACE` with no quoted string open: the byte is discarded. -/
theorem lexRun_space {c : Char} (st : LexSt) (cs : List Char) (h : isPySpace c = true)
    (h0 : (c == tabC || c == nlC) = false) (hs : st.string_open = false) :
    lexRun st (c :: cs) = lexRun st cs := by
  rw [lexRun_cons]; simp [lexStep, lexClass_space cs h h0, hs]

/-- Rule `t_SPACE` with a quoted string open: the byte is appended verbatim. -/
theorem lexRun_space_open {c : Char} (st : LexSt) (cs : List Char) (h : isPySpace c = true)
    (h0 : (c == tabC || c == nlC) = false) (hs : st.string_open = true) :
    lexRun st (c :: cs) = lexRun { st with string := st.string ++ [c] } cs := by
  rw [lexRun_cons]; simp [lexStep, lexClass_space cs h h0, hs]

/-- A punctuation rule outside comments and strings: its token is emitted. -/
theorem lexRun_punct {c : Char} (st : LexSt) (cs : List Char) (h : isPunct c = true)
    (hc : st.comment_open = false) (hs : st.string_open = false) :
    lexRun st (c :: cs) = punctTok c :: lexRun st cs := by
  rw [lexRun_cons]; simp [lexStep, lexClass_punct cs h, hc, hs]

/-- A punctuation rule with a quoted string open: the character is appended. -/
theorem lexRun_punct_open {c : Char} (st : LexSt) (cs : List Char) (h : isPunct c = true)
    (hc : st.comment_open = false) (hs : st.string_open = true) :
    lexRun st (c :: cs) = lexRun { st with string := st.string ++ [c] } cs := by
  rw [lexRun_cons]; simp [lexStep, lexClass_punct cs h, hc, hs]

/-- A punctuation rule inside a block comment: the character is suppressed. -/
theorem lexRun_punct_comment {c : Char} (st : LexSt) (cs : List Char) (h : isPunct c = true)
    (hc : st.comment_open = true) :
    lexRun st (c :: cs) = lexRun st cs := by
  rw [lexRun_cons]; simp [lexStep, lexClass_punct cs h, hc]

theorem lexClass_quote (cs : List Char) : lexClass quoteC cs = .quote := by
  have h1 : (quoteC == tabC || quoteC == nlC) = false := by decide
  have h2 : isPySpace quoteC = false := by decide
  have h3 : (quoteC == quoteC) = true := by decide
  simp [lexClass, h1, h2, h3]

/-- Rule `t_QUOTE` with no string open: opens the accumulator seeded with the
quote character; no token is emitted. -/
theorem lexRun_quote_open (st : LexSt) (cs : List Char)
    (hc : st.comment_open = false) (hs : st.string_open = false) :
    lexRun st (quoteC :: cs) =
      lexRun { st with string := [quoteC], string_open := true } cs := by
  rw [lexRun_cons]; simp [lexStep, lexClass_quote cs, hc, hs]

/-- Rule `t_QUOTE` with a string open: appends the closing quote, emits the
accumulated text as a Word token, and leaves quoted-string mode. -/
theorem lexRun_quote_close (st : LexSt) (cs : List Char)
    (hc : st.comment_open = false) (hs : st.string_open = true) :
    lexRun st (quoteC :: cs) =
      Tok.word (st.string ++ [quoteC]) ::
        lexRun { st with string := st.string ++ [quoteC], string_open := false } cs := by
  rw [lexRun_cons]; simp [lexStep, lexClass_quote cs, hc, hs]

/-- Rule `t_QUOTE` inside a block comment: the quote is ignored. -/
theorem lexRun_quote_comment (st : LexSt) (cs : List Char) (hc : st.comment_open = true) :
    lexRun st (quoteC :: cs) = lexRun st cs := by
  rw [lexRun_cons]; simp [lexStep, lexClass_quote cs, hc]

/-- Rule `t_WORD` outside comments and strings: the maximal run of bare-word
characters is emitted as one Word token. -/
theorem lexRun_word {c : Char} (st : LexSt) (cs : List Char) (h : isWordChar c = true)
    (h1 : (c == '/' && cs.head? == some '*') = false)
    (h2 : (c == '*' && cs.head? == some '/') = false)
    (h3 : (c == '/' && cs.head? == some '/') = false)
    (hc : st.comment_open = false) (hs : st.string_open = false) :
    lexRun st (c :: cs) =
      Tok.word (c :: cs.takeWhile isWordChar) :: lexRun st (cs.dropWhile isWordChar) := by
  rw [lexRun_cons]; simp [lexStep, lexClass_wordR cs h h1 h2 h3, hc, hs]

/-- Rule `t_WORD` with a quoted string open: the maximal run is appended to the
accumulator and no token is emitted. -/
theorem lexRun_word_open {c : Char} (st : LexSt) (cs : List Char) (h : isWordChar c = true)
    (h1 : (c == '/' && cs.head? == some '*') = false)
    (h2 : (c == '*' && cs.head? == some '/') = false)
    (h3 : (c == '/' && cs.head? == some '/') = false)
    (hc : st.comment_open = false) (hs : st.string_open = true) :
    lexRun st (c :: cs) =
      lexRun { st with string := st.string ++ (c :: cs.takeWhile isWordChar) }
        (cs.dropWhile isWordChar) := by
  rw [lexRun_cons]; simp [lexStep, lexClass_wordR cs h h1 h2 h3, hc, hs]

/-- Rule `t_WORD` inside a block comment: the run is consumed and suppressed. -/
theorem lexRun_word_comment {c : Char} (st : LexSt) (cs : List Char) (h : isWordChar c = true)
    (h1 : (c == '/' && cs.head? == some '*') = false)
    (h2 : (c == '*' && cs.head? == some '/') = false)
    (h3 : (c == '/' && cs.head? == some '/') = false)
    (hc : st.comment_open = true) :
    lexRun st (c :: cs) = lexRun st (cs.dropWhile isWordChar) := by
  rw [lexRun_cons]; simp [lexStep, lexClass_wordR cs h h1 h2 h3, hc]

/-- Rule `t_LCOMMENT`: `/*` sets `comment_open`, in every state (the source
sets the flag without checking whether a string is open). -/
theorem lexRun_lcomment (st : LexSt) (cs2 : List Char) :
    lexRun st ('/' :: '*' :: cs2) = lexRun { st with comment_open := true } cs2 := by
  have hcl : lexClass '/' ('*' :: cs2) = .lcomment := by
    have h1 : (('/' : Char) == tabC || ('/' : Char) == nlC) = false := by decide
    have h2 : isPySpace '/' = false := by decide
    have h3 : (('/' : Char) == quoteC) = false := by decide
    have h4 : (('/' : Char) == bslashC) = false := by decide
    have h5 : isPunct '/' = false := by decide
    simp [lexClass, h1, h2, h3, h4, h5]
  rw [lexRun_cons]; simp [lexStep, hcl]

/-- Rule `t_RCOMMENT`: `*/` clears `comment_open`, in every state. -/
theorem lexRun_rcomment (st : LexSt) (cs2 : List Char) :
    lexRun st ('*' :: '/' :: cs2) = lexRun { st with comment_open := false } cs2 := by
  have hcl : lexClass '*' ('/' :: cs2) = .rcomment := by
    have h1 : (('*' : Char) == tabC || ('*' : Char) == nlC) = false := by decide
    have h2 : isPySpace '*' = false := by decide
    have h3 : (('*' : Char) == quoteC) = false := by decide
    have h4 : (('*' : Char) == bslashC) = false := by decide
    have h5 : isPunct '*' = false := by decide
    simp [lexClass, h1, h2, h3, h4, h5]
  rw [lexRun_cons]; simp [lexStep, hcl]

/-- Rule `t_COMMENT`: `//` consumes everything to the end of the line, in every
state (the source rule fires regardless of comment or string mode). -/
theorem lexRun_linecomment (st : LexSt) (cs2 : List Char) :
    lexRun st ('/' :: '/' :: cs2) = lexRun st (cs2.dropWhile (fun d => !(d == nlC))) := by
  have hcl : lexClass '/' ('/' :: cs2) = .comment := by
    have h1 : (('/' : Char) == tabC || ('/' : Char) == nlC) = false := by decide
    have h2 : isPySpace '/' = false := by decide
    have h3 : (('/' : Char) == quoteC) = false := by decide
    have h4 : (('/' : Char) == bslashC) = false := by decide
    have h5 : isPunct '/' = false := by decide
    simp [lexClass, h1, h2, h3, h4, h5]
  rw [lexRun_cons]; simp [lexStep, hcl]

/-- Indentation runs are invisible to the lexer in every state. -/
theorem lexRun_tabs (n : Nat) (st : LexSt) (cs : List Char) :
    lexRun st (tabs n ++ cs) = lexRun st cs := by
  induction n with
  | zero => simp [tabs]
  | succ n ih => simpa [tabs, List.replicate_succ, lexRun_tab] using ih

/-- Two lexer states that differ at most in the content of a closed string
accumulator. The accumulator is only read while `string_open` is true, and
opening a new string resets it, so such states are interchangeable. -/
def stEquiv (s1 s2 : LexSt) : Prop :=
  s1.comment_open = s2.comment_open ∧ s1.string_open = s2.string_open ∧
    (s1.string_open = true → s1.string = s2.string)

theorem stEquiv_refl (s : LexSt) : stEquiv s s := ⟨rfl, rfl, fun _ => rfl⟩

/-- The lexer's behaviour does not depend on the content of a closed string
accumulator. -/
theorem lexRun_stEquiv :
    ∀ (n : Nat) (l : List Char) (s1 s2 : LexSt), l.length ≤ n → stEquiv s1 s2 →
      lexRun s1 l = lexRun s2 l := by
  intro n
  induction n with
  | zero =>
    intro l s1 s2 hn _
    have : l = [] := List.length_eq_zero.mp (Nat.le_zero.mp hn)
    subst this
    rfl
  | succ n ih =>
    intro l s1 s2 hn he
    obtain ⟨hco, hso, hstr⟩ := he
    match l with
    | [] => rfl
    | c :: cs =>
      have hlen : cs.length ≤ n := by simp at hn; omega
      have btl : cs.tail.length ≤ n := le_trans (cs.tail_sublist.length_le) hlen
      have bdw : (cs.dropWhile isWordChar).length ≤ n :=
        le_trans ((cs.dropWhile_sublist _).length_le) hlen
      rw [lexRun_cons, lexRun_cons]
      cases hcl : lexClass c cs with
      | ignore =>
        simp only [lexStep, hcl, List.nil_append]
        exact ih cs s1 s2 hlen ⟨hco, hso, hstr⟩
      | space =>
        simp only [lexStep, hcl, List.nil_append]
        cases hs : s1.string_open with
        | true =>
          have hs2 := hso.symm.trans hs
          rw [hs2]
          simp only [if_true]
          exact ih cs _ _ hlen (by refine ⟨?_, ?_, fun hx => ?_⟩ <;> simp_all)
        | false =>
          have hs2 := hso.symm.trans hs
          rw [hs2]
          simp only [Bool.false_eq_true, if_false]
          exact ih cs s1 s2 hlen ⟨hco, hso, hstr⟩
      | quote =>
        simp only [lexStep, hcl]
        cases hc : s1.comment_open with
        | true =>
          have hc2 := hco.symm.trans hc
          rw [hc2]
          simp only [if_true, List.nil_append]
          exact ih cs s1 s2 hlen ⟨hco, hso, hstr⟩
        | false =>
          have hc2 := hco.symm.trans hc
          rw [hc2]
          simp only [Bool.false_eq_true, if_false]
          cases hs : s1.string_open with
          | true =>
            have hs2 := hso.symm.trans hs
            rw [hs2]
            simp only [if_true, List.cons_append, List.nil_append, hstr hs]
          | false =>
            have hs2 := hso.symm.trans hs
            rw [hs2]
            simp only [Bool.false_eq_true, if_false, List.nil_append]
      | quoteLit =>
        simp only [lexStep, hcl]
        cases hc : s1.comment_open with
        | true =>
          have hc2 := hco.symm.trans hc
          rw [hc2]
          simp only [if_true, List.nil_append]
          exact ih cs.tail s1 s2 btl ⟨hco, hso, hstr⟩
        | false =>
          have hc2 := hco.symm.trans hc
          rw [hc2]
          simp only [Bool.false_eq_true, if_false]
          cases hs : s1.string_open with
          | true =>
            have hs2 := hso.symm.trans hs
            rw [hs2]
            simp only [if_true, List.nil_append]
            exact ih cs.tail _ _ btl (by refine ⟨?_, ?_, fun hx => ?_⟩ <;> simp_all)
          | false =>
            have hs2 := hso.symm.trans hs
            rw [hs2]
            simp only [Bool.false_eq_true, if_false, List.cons_append, List.nil_append]
            exact congrArg _ (ih cs.tail s1 s2 btl ⟨hco, hso, hstr⟩)
      | nlLit =>
        simp only [lexStep, hcl, List.nil_append]
        cases hs : s1.string_open with
        | true =>
          have hs2 := hso.symm.trans hs
          rw [hs2]
          simp only [if_true]
          exact ih cs.tail _ _ btl (by refine ⟨?_, ?_, fun hx => ?_⟩ <;> simp_all)
        | false =>
          have hs2 := hso.symm.trans hs
          rw [hs2]
          simp only [Bool.false_eq_true, if_false]
          exact ih cs.tail s1 s2 btl ⟨hco, hso, hstr⟩
      | punct =>
        simp only [lexStep, hcl]
        cases hc : s1.comment_open with
        | true =>
          have hc2 := hco.symm.trans hc
          rw [hc2]
          simp only [if_true, List.nil_append]
          exact ih cs s1 s2 hlen ⟨hco, hso, hstr⟩
        | false =>
          have hc2 := hco.symm.trans hc
          rw [hc2]
          simp only [Bool.false_eq_true, if_false]
          cases hs : s1.string_open with
          | true =>
            have hs2 := hso.symm.trans hs
            rw [hs2]
            simp only [if_true, List.nil_append]
            exact ih cs _ _ hlen (by refine ⟨?_, ?_, fun hx => ?_⟩ <;> simp_all)
          | false =>
            have hs2 := hso.symm.trans hs
            rw [hs2]
            simp only [Bool.false_eq_true, if_false, List.cons_append, List.nil_append]
            exact congrArg _ (ih cs s1 s2 hlen ⟨hco, hso, hstr⟩)
      | lcomment =>
        simp only [lexStep, hcl, List.nil_append]
        exact ih cs.tail _ _ btl ⟨by simp, by simpa using hso, fun h => hstr (by simpa using h)⟩
      | rcomment =>
        simp only [lexStep, hcl, List.nil_append]
        exact ih cs.tail _ _ btl ⟨by simp, by simpa using hso, fun h => hstr (by simpa using h)⟩
      | comment =>
        simp only [lexStep, hcl, List.nil_append]
        exact ih _ s1 s2 (le_trans ((cs.tail.dropWhile_sublist _).length_le) btl)
          ⟨hco, hso, hstr⟩
      | wordR =>
        simp only [lexStep, hcl]
        cases hc : s1.comment_open with
        | true =>
          have hc2 := hco.symm.trans hc
          rw [hc2]
          simp only [if_true, List.nil_append]
          exact ih _ s1 s2 bdw ⟨hco, hso, hstr⟩
        | false =>
          have hc2 := hco.symm.trans hc
          rw [hc2]
          simp only [Bool.false_eq_true, if_false]
          cases hs : s1.string_open with
          | true =>
            have hs2 := hso.symm.trans hs
            rw [hs2]
            simp only [if_true, List.nil_append]
            exact ih _ _ _ bdw (by refine ⟨?_, ?_, fun hx => ?_⟩ <;> simp_all)
          | false =>
            have hs2 := hso.symm.trans hs
            rw [hs2]
            simp only [Bool.false_eq_true, if_false, List.cons_append, List.nil_append]
            exact congrArg _ (ih _ s1 s2 bdw ⟨hco, hso, hstr⟩)
      | err =>
        simp only [lexStep, hcl, List.nil_append]
        exact ih cs s1 s2 hlen ⟨hco, hso, hstr⟩

/-- Buffer irrelevance while no string is open. -/
theorem lexRun_buffer (co : Bool) (b1 b2 l : List Char) :
    lexRun ⟨co, b1, false⟩ l = lexRun ⟨co, b2, false⟩ l :=
  lexRun_stEquiv l.length l _ _ le_rfl ⟨rfl, rfl, fun h => by simp at h⟩

/-- A bare-word lexeme that re-lexes as itself: nonempty, all characters in the
word class, and not beginning with a comment delimiter (`/*`, `*/`, `//`),
which would make an earlier rule fire at its first character. -/
def safeBareB (w : List Char) : Bool :=
  !w.isEmpty && w.all isWordChar && !startsTwo w '/' '*' && !startsTwo w '*' '/' &&
    !startsTwo w '/' '/'

theorem takeWhile_eq_nil_hnw {l : List Char} (h : headNotWord l = true) :
    l.takeWhile isWordChar = [] := by
  cases l with
  | nil => rfl
  | cons c t =>
    simp only [headNotWord, Bool.not_eq_true'] at h
    simp [List.takeWhile_cons, h]

theorem dropWhile_eq_self_hnw {l : List Char} (h : headNotWord l = true) :
    l.dropWhile isWordChar = l := by
  cases l with
  | nil => rfl
  | cons c t =>
    simp only [headNotWord, Bool.not_eq_true'] at h
    simp [List.dropWhile_cons, h]

theorem head_dropWhile_false :
    ∀ (l : List Char) (c : Char), (l.dropWhile isWordChar).head? = some c →
      isWordChar c = false := by
  intro l
  induction l with
  | nil => intro c h; simp at h
  | cons a t ih =>
    intro c h
    by_cases ha : isWordChar a = true
    · rw [List.dropWhile_cons, if_pos ha] at h
      exact ih c h
    · rw [List.dropWhile_cons, if_neg ha] at h
      simp only [List.head?_cons, Option.some.injEq] at h
      rw [← h]
      simpa using ha

theorem headNotWord_dropWhile_append {b rest : List Char} (hr : headNotWord rest = true) :
    headNotWord (b.dropWhile isWordChar ++ rest) = true := by
  cases hd : b.dropWhile isWordChar with
  | nil => simpa using hr
  | cons x t =>
    have hx : isWordChar x = false := head_dropWhile_false b x (by rw [hd]; rfl)
    simp [headNotWord, hx]

theorem all_dropWhile {p q : Char → Bool} {l : List Char} (h : l.all p = true) :
    (l.dropWhile q).all p = true := by
  rw [List.all_eq_true] at h ⊢
  exact fun x hx => h x ((l.dropWhile_sublist q).subset hx)

theorem all_takeWhile_self {l : List Char} :
    ∀ x ∈ l.takeWhile isWordChar, isWordChar x = true :=
  fun _ hx => List.mem_takeWhile_imp hx

/-- If a comment-delimiter lookahead would succeed at the head of a maximal
word run, the run's spelling starts with that delimiter. -/
theorem word_guard {c b a : Char} {w' rest : List Char} (ha : isWordChar a = true)
    (hw : headNotWord rest = true) (hst : startsTwo (c :: w') b a = false) :
    (c == b && (w' ++ rest).head? == some a) = false := by
  cases hcb : c == b with
  | false => simp [hcb]
  | true =>
    simp only [hcb, Bool.true_and]
    cases w' with
    | nil =>
      cases rest with
      | nil => simp
      | cons r rs =>
        simp only [List.nil_append, List.head?_cons]
        have hrw : isWordChar r = false := by
          simpa [headNotWord, Bool.not_eq_true'] using hw
        cases hra : r == a with
        | false => simpa using hra
        | true =>
          exfalso
          rw [beq_iff_eq.mp hra] at hrw
          simp [hrw] at ha
    | cons c2 t =>
      simp only [List.cons_append, List.head?_cons]
      cases hc2 : c2 == a with
      | false => simpa using hc2
      | true =>
        exfalso
        have : startsTwo (c :: c2 :: t) b a = true := by
          simp [startsTwo, hcb, hc2]
        rw [this] at hst
        simp at hst

/-- A safe bare word followed by a non-word boundary lexes, outside comments
and strings, to exactly one Word token carrying the word verbatim. -/
theorem lexRun_word_chunk (st : LexSt) {w rest : List Char} (hsafe : safeBareB w = true)
    (hr : headNotWord rest = true) (hc : st.comment_open = false)
    (hs : st.string_open = false) :
    lexRun st (w ++ rest) = Tok.word w :: lexRun st rest := by
  simp only [safeBareB, Bool.and_eq_true, Bool.not_eq_true'] at hsafe
  obtain ⟨⟨⟨⟨hne, hall⟩, hg1⟩, hg2⟩, hg3⟩ := hsafe
  match w with
  | [] => simp at hne
  | c :: w' =>
    rw [List.all_cons, Bool.and_eq_true] at hall
    obtain ⟨hcw, hw'⟩ := hall
    have h1 := @word_guard c '/' '*' w' rest (by decide) hr hg1
    have h2 := @word_guard c '*' '/' w' rest (by decide) hr hg2
    have h3 := @word_guard c '/' '/' w' rest (by decide) hr hg3
    rw [List.cons_append, lexRun_word st (w' ++ rest) hcw h1 h2 h3 hc hs]
    have htk : (w' ++ rest).takeWhile isWordChar = w' := by
      rw [List.takeWhile_append_of_pos (by simpa [List.all_eq_true] using hw'),
        takeWhile_eq_nil_hnw hr, List.append_nil]
    have hdr : (w' ++ rest).dropWhile isWordChar = rest := by
      rw [List.dropWhile_append_of_pos (by simpa [List.all_eq_true] using hw'),
        dropWhile_eq_self_hnw hr]
    rw [htk, hdr]

/-- A character allowed inside a quoted-string body for verbatim round
tripping: a bare-word character other than `/` and `*` (which could assemble
a comment delimiter), a space, or structural punctuation. -/
def safeBodyChar (c : Char) : Bool :=
  (isWordChar c && !(c == '/') && !(c == '*')) || c == ' ' || isPunct c

/-- While a quoted string is open, lexing a safe body appends it verbatim to
the accumulator, emitting nothing and staying inside the string. -/
theorem lexRun_body :
    ∀ (n : Nat) (body : List Char), body.length ≤ n → body.all safeBodyChar = true →
      ∀ (acc rest : List Char), headNotWord rest = true →
        lexRun ⟨false, acc, true⟩ (body ++ rest) = lexRun ⟨false, acc ++ body, true⟩ rest := by
  intro n
  induction n with
  | zero =>
    intro body hn _ acc rest _
    have : body = [] := List.length_eq_zero.mp (Nat.le_zero.mp hn)
    subst this
    simp
  | succ n ih =>
    intro body hn hsafe acc rest hr
    match body with
    | [] => simp
    | c :: body' =>
      rw [List.all_cons, Bool.and_eq_true] at hsafe
      obtain ⟨hc0, hb'⟩ := hsafe
      have hlen : body'.length ≤ n := by simp at hn; omega
      cases hpt : isPunct c with
      | true =>
        rw [List.cons_append,
          lexRun_punct_open ⟨false, acc, true⟩ (body' ++ rest) hpt rfl rfl]
        rw [ih body' hlen hb' (acc ++ [c]) rest hr]
        simp
      | false =>
      cases hsp : c == ' ' with
      | true =>
        have hsp' := beq_iff_eq.mp hsp
        subst hsp'
        rw [List.cons_append,
          lexRun_space_open ⟨false, acc, true⟩ (body' ++ rest) (by decide)
            (by decide) rfl]
        rw [ih body' hlen hb' (acc ++ [' ']) rest hr]
        simp
      | false =>
        have hc1 : (isWordChar c && !(c == '/') && !(c == '*')) = true := by
          revert hc0
          simp [safeBodyChar, hpt, hsp]
        simp only [Bool.and_eq_true, Bool.not_eq_true'] at hc1
        obtain ⟨⟨hword, hns⟩, hna⟩ := hc1
        have h1 : (c == '/' && (body' ++ rest).head? == some '*') = false := by
          simp [hns]
        have h2 : (c == '*' && (body' ++ rest).head? == some '/') = false := by
          simp [hna]
        have h3 : (c == '/' && (body' ++ rest).head? == some '/') = false := by
          simp [hns]
        rw [List.cons_append,
          lexRun_word_open ⟨false, acc, true⟩ (body' ++ rest) hword h1 h2 h3 rfl rfl]
        have hsplit := List.takeWhile_append_dropWhile isWordChar body'
        have htk : (body' ++ rest).takeWhile isWordChar = body'.takeWhile isWordChar := by
          conv_lhs => rw [← hsplit]
          rw [List.append_assoc,
            List.takeWhile_append_of_pos (fun x hx => all_takeWhile_self x hx),
            takeWhile_eq_nil_hnw (headNotWord_dropWhile_append hr), List.append_nil]
        have hdr : (body' ++ rest).dropWhile isWordChar =
            body'.dropWhile isWordChar ++ rest := by
          conv_lhs => rw [← hsplit]
          rw [List.append_assoc,
            List.dropWhile_append_of_pos (fun x hx => all_takeWhile_self x hx),
            dropWhile_eq_self_hnw (headNotWord_dropWhile_append hr)]
        rw [htk, hdr]
        have := ih (body'.dropWhile isWordChar)
          (le_trans ((body'.dropWhile_sublist _).length_le) hlen)
          (all_dropWhile hb') (acc ++ (c :: body'.takeWhile isWordChar)) rest hr
        rw [this]
        have hacc : (acc ++ (c :: body'.takeWhile isWordChar)) ++
            body'.dropWhile isWordChar = acc ++ (c :: body') := by
          conv_rhs => rw [← hsplit]
          simp
        rw [hacc]

/-- A safe quoted lexeme re-lexes, outside comments and strings, to exactly
one Word token carrying the quoted text verbatim. -/
theorem lexRun_quoted_chunk (st : LexSt) {body rest : List Char}
    (hbody : body.all safeBodyChar = true) (hc : st.comment_open = false)
    (hs : st.string_open = false) :
    lexRun st (quoteC :: (body ++ quoteC :: rest)) =
      Tok.word (quoteC :: body ++ [quoteC]) :: lexRun st rest := by
  rw [lexRun_quote_open st _ hc hs]
  have hst : ({ st with string := [quoteC], string_open := true } : LexSt) =
      ⟨st.comment_open, [quoteC], true⟩ := rfl
  rw [hst, hc]
  have hqw : headNotWord (quoteC :: rest) = true := by
    have he : headNotWord (quoteC :: rest) = !isWordChar quoteC := rfl
    rw [he]; decide
  rw [lexRun_body (body.length) body le_rfl hbody [quoteC] (quoteC :: rest) hqw]
  rw [lexRun_quote_close ⟨false, [quoteC] ++ body, true⟩ rest rfl rfl]
  have hb : lexRun ⟨false, ([quoteC] ++ body) ++ [quoteC], false⟩ rest = lexRun st rest := by
    rw [lexRun_stEquiv rest.length rest _ st le_rfl
      ⟨by simp [hc], by simp [hs], fun h => by simp at h⟩]
  rw [hb]
  rfl

/-- The rule classifier on a backslash dispatches on the following character:
`\"` is `t_QUOTE_LITERAL`, `\n` is `t_NEWLINE_LITERAL`, anything else (or end
of input) matches no rule. -/
theorem lexClass_bslash (cs : List Char) :
    lexClass bslashC cs =
      (match cs with
      | d :: _ => if d == quoteC then Rule.quoteLit else if d == 'n' then Rule.nlLit else Rule.err
      | [] => Rule.err) := by
  have h1 : (bslashC == tabC || bslashC == nlC) = false := by decide
  have h2 : isPySpace bslashC = false := by decide
  have h3 : (bslashC == quoteC) = false := by decide
  have h4 : (bslashC == bslashC) = true := by decide
  simp [lexClass, h1, h2, h3, h4]

/-- Rule `t_QUOTE_LITERAL` inside a block comment: the two characters are
consumed and ignored. -/
theorem lexRun_bslash_quote_comment (st : LexSt) (cs2 : List Char)
    (hc : st.comment_open = true) :
    lexRun st (bslashC :: quoteC :: cs2) = lexRun st cs2 := by
  have hcl : lexClass bslashC (quoteC :: cs2) = .quoteLit := by
    rw [lexClass_bslash]; simp
  rw [lexRun_cons]; simp [lexStep, hcl, hc]

/-- Rule `t_NEWLINE_LITERAL` with no string open: the two characters are
consumed and ignored. -/
theorem lexRun_bslash_n_closed (st : LexSt) (cs2 : List Char)
    (hs : st.string_open = false) :
    lexRun st (bslashC :: 'n' :: cs2) = lexRun st cs2 := by
  have hq : (('n' : Char) == quoteC) = false := by decide
  have hcl : lexClass bslashC ('n' :: cs2) = .nlLit := by
    rw [lexClass_bslash]; simp [hq]
  rw [lexRun_cons]; simp [lexStep, hcl, hs]

/-- A backslash not followed by `"` or `n` matches no rule: `t_error` skips
just the backslash. -/
theorem lexRun_bslash_other (st : LexSt) (cs : List Char)
    (h1 : (cs.head? == some quoteC) = false) (h2 : (cs.head? == some 'n') = false) :
    lexRun st (bslashC :: cs) = lexRun st cs := by
  have hcl : lexClass bslashC cs = .err := by
    rw [lexClass_bslash]
    cases cs with
    | nil => rfl
    | cons d t =>
      simp only [List.head?_cons] at h1 h2
      have hd1 : (d == quoteC) = false := by simpa using h1
      have hd2 : (d == 'n') = false := by simpa using h2
      simp [hd1, hd2]
  rw [lexRun_cons]; simp [lexStep, hcl]

/-- A character matching none of the rules is skipped by `t_error`. -/
theorem lexClass_err {c : Char} (cs : List Char)
    (h0 : (c == tabC || c == nlC) = false) (h1 : isPySpace c = false)
    (h2 : (c == quoteC) = false) (h3 : (c == bslashC) = false) (h4 : isPunct c = false)
    (h5 : (c == Char.ofNat 47) = false) (h6 : (c == Char.ofNat 42) = false)
    (h7 : isWordChar c = false) :
    lexClass c cs = .err := by
  have h5' : (c == '/') = false := h5
  have h6' : (c == '*') = false := h6
  simp [lexClass, h0, h1, h2, h3, h4, h5', h6', h7]

theorem lexRun_errstep (st : LexSt) (c : Char) (cs : List Char)
    (hcl : lexClass c cs = .err) :
    lexRun st (c :: cs) = lexRun st cs := by
  rw [lexRun_cons]; simp [lexStep, hcl]

/-- A character that cannot assemble a comment delimiter (neither `/` nor `*`);
every such character, in comment mode with no string open, is consumed without
effect. -/
def commentSafeChar (c : Char) : Bool :=
  !(c == '/') && !(c == '*')

/-- Whether a list is empty or ends with a character outside the bare-word
class (so the greedy word regex cannot run past its end). -/
def lastNotWord (l : List Char) : Bool :=
  match l.getLast? with
  | Option.none => true
  | some c => !isWordChar c

theorem lastNotWord_cons {c : Char} {l : List Char} (h : lastNotWord (c :: l) = true)
    (hne : l ≠ []) : lastNotWord l = true := by
  cases l with
  | nil => exact absurd rfl hne
  | cons d t => simpa [lastNotWord, List.getLast?_cons_cons] using h

theorem lastNotWord_all_nil :
    ∀ l : List Char, lastNotWord l = true → l.all isWordChar = true → l = [] := by
  intro l
  induction l with
  | nil => intro _ _; rfl
  | cons c t ih =>
    intro hl ha
    rw [List.all_cons, Bool.and_eq_true] at ha
    cases t with
    | nil =>
      exfalso
      have : lastNotWord [c] = !isWordChar c := rfl
      rw [this, ha.1] at hl
      simp at hl
    | cons d u =>
      have := ih (by simpa [lastNotWord, List.getLast?_cons_cons] using hl) ha.2
      simp at this

theorem lastNotWord_append {l d : List Char} (h : lastNotWord (l ++ d) = true)
    (hne : d ≠ []) : lastNotWord d = true := by
  have : (l ++ d).getLast? = d.getLast? := List.getLast?_append_of_ne_nil _ hne
  simpa [lastNotWord, this] using h

/-- Inside a block comment with no string open, a run of comment-safe
characters not ending in a word character is consumed without any effect, and
the following `*/` closes the comment. -/
theorem lexRun_in_comment :
    ∀ (n : Nat) (body : List Char), body.length ≤ n → body.all commentSafeChar = true →
      lastNotWord body = true → ∀ (st : LexSt) (rest : List Char),
        st.comment_open = true → st.string_open = false →
          lexRun st (body ++ '*' :: '/' :: rest) =
            lexRun { st with comment_open := false } rest := by
  intro n
  induction n with
  | zero =>
    intro body hn _ _ st rest hc hs
    have : body = [] := List.length_eq_zero.mp (Nat.le_zero.mp hn)
    subst this
    simpa using lexRun_rcomment st rest
  | succ n ih =>
    intro body hn hsafe hlast st rest hc hs
    match body with
    | [] => simpa using lexRun_rcomment st rest
    | c :: body' =>
      rw [List.all_cons, Bool.and_eq_true] at hsafe
      obtain ⟨hc0, hb'⟩ := hsafe
      simp only [commentSafeChar, Bool.and_eq_true, Bool.not_eq_true'] at hc0
      obtain ⟨hslash, hstar⟩ := hc0
      have hlen : body'.length ≤ n := by simp at hn; omega
      rw [List.cons_append]
      by_cases htn : (c == tabC || c == nlC) = true
      · rcases Bool.or_eq_true_iff.mp htn with h | h
        · rw [beq_iff_eq.mp h, lexRun_tab]
          exact ih body' hlen hb'
            (if hbe : body' = [] then by simp [hbe, lastNotWord]
             else lastNotWord_cons hlast hbe) st rest hc hs
        · rw [beq_iff_eq.mp h, lexRun_nl]
          exact ih body' hlen hb'
            (if hbe : body' = [] then by simp [hbe, lastNotWord]
             else lastNotWord_cons hlast hbe) st rest hc hs
      · have htn' : (c == tabC || c == nlC) = false := by simpa using htn
        by_cases hsp : isPySpace c = true
        · rw [lexRun_space st _ hsp htn' hs]
          exact ih body' hlen hb'
            (if hbe : body' = [] then by simp [hbe, lastNotWord]
             else lastNotWord_cons hlast hbe) st rest hc hs
        · have hsp' : isPySpace c = false := by simpa using hsp
          by_cases hq : (c == quoteC) = true
          · rw [beq_iff_eq.mp hq, lexRun_quote_comment st _ hc]
            exact ih body' hlen hb'
              (if hbe : body' = [] then by simp [hbe, lastNotWord]
               else lastNotWord_cons hlast hbe) st rest hc hs
          · have hq' : (c == quoteC) = false := by simpa using hq
            by_cases hbs : (c == bslashC) = true
            · rw [beq_iff_eq.mp hbs]
              cases body' with
              | nil =>
                have hh1 : ((('*' :: '/' :: rest).head? == some quoteC)) = false := by
                  rw [show ('*' :: '/' :: rest).head? = some '*' from rfl]; decide
                have hh2 : ((('*' :: '/' :: rest).head? == some 'n')) = false := by
                  rw [show ('*' :: '/' :: rest).head? = some '*' from rfl]; decide
                rw [show ([] : List Char) ++ '*' :: '/' :: rest = '*' :: '/' :: rest
                  from rfl] at *
                rw [lexRun_bslash_other st _ hh1 hh2]
                simpa using lexRun_rcomment st rest
              | cons d body2 =>
                have hd := hb'
                rw [List.all_cons, Bool.and_eq_true] at hd
                have hlen2 : body2.length ≤ n := by simp at hn; omega
                have hln2 : lastNotWord body2 = true :=
                  if hbe : body2 = [] then by simp [hbe, lastNotWord]
                  else lastNotWord_cons (lastNotWord_cons hlast (by simp)) hbe
                by_cases hdq : (d == quoteC) = true
                · rw [beq_iff_eq.mp hdq, List.cons_append,
                    lexRun_bslash_quote_comment st _ hc]
                  exact ih body2 hlen2 hd.2 hln2 st rest hc hs
                · by_cases hdn : (d == 'n') = true
                  · rw [beq_iff_eq.mp hdn, List.cons_append,
                      lexRun_bslash_n_closed st _ hs]
                    exact ih body2 hlen2 hd.2 hln2 st rest hc hs
                  · have hh1 : (((d :: body2) ++ '*' :: '/' :: rest).head? ==
                        some quoteC) = false := by
                      simpa using hdq
                    have hh2 : (((d :: body2) ++ '*' :: '/' :: rest).head? ==
                        some 'n') = false := by
                      simpa using hdn
                    rw [lexRun_bslash_other st _ hh1 hh2]
                    exact ih (d :: body2) hlen hb'
                      (lastNotWord_cons hlast (by simp)) st rest hc hs
            · have hbs' : (c == bslashC) = false := by simpa using hbs
              by_cases hpt : isPunct c = true
              · rw [lexRun_punct_comment st _ hpt hc]
                exact ih body' hlen hb'
                  (if hbe : body' = [] then by simp [hbe, lastNotWord]
                   else lastNotWord_cons hlast hbe) st rest hc hs
              · have hpt' : isPunct c = false := by simpa using hpt
                by_cases hwd : isWordChar c = true
                · have h1 : (c == '/' && ((body' ++ '*' :: '/' :: rest).head? ==
                      some '*')) = false := by simp [hslash]
                  have h2 : (c == '*' && ((body' ++ '*' :: '/' :: rest).head? ==
                      some '/')) = false := by simp [hstar]
                  have h3 : (c == '/' && ((body' ++ '*' :: '/' :: rest).head? ==
                      some '/')) = false := by simp [hslash]
                  rw [lexRun_word_comment st _ hwd h1 h2 h3 hc]
                  have hdn : body'.dropWhile isWordChar ≠ [] := by
                    intro hnil
                    have hall : body'.all isWordChar = true := by
                      rw [List.dropWhile_eq_nil_iff] at hnil
                      rw [List.all_eq_true]
                      exact fun x hx => hnil x hx
                    have : (c :: body').all isWordChar = true := by
                      simp [List.all_cons, hwd, hall]
                    have := lastNotWord_all_nil (c :: body') hlast this
                    simp at this
                  have hsplit := List.takeWhile_append_dropWhile isWordChar body'
                  have hdr : (body' ++ '*' :: '/' :: rest).dropWhile isWordChar =
                      body'.dropWhile isWordChar ++ '*' :: '/' :: rest := by
                    conv_lhs => rw [← hsplit]
                    rw [List.append_assoc,
                      List.dropWhile_append_of_pos (fun x hx => all_takeWhile_self x hx),
                      dropWhile_eq_self_hnw]
                    cases hdd : body'.dropWhile isWordChar with
                    | nil => exact absurd hdd hdn
                    | cons x t =>
                      have hx : isWordChar x = false :=
                        head_dropWhile_false body' x (by rw [hdd]; rfl)
                      simp [headNotWord, hx]
                  rw [hdr]
                  have hb2 : (body'.dropWhile isWordChar).all commentSafeChar = true :=
                    all_dropWhile hb'
                  have hl2 : lastNotWord (body'.dropWhile isWordChar) = true := by
                    have hbody' : lastNotWord body' = true :=
                      lastNotWord_cons hlast (by
                        intro hbe
                        rw [hbe] at hdn
                        simp at hdn)
                    have : body' = body'.takeWhile isWordChar ++
                        body'.dropWhile isWordChar := hsplit.symm
                    rw [this] at hbody'
                    exact lastNotWord_append hbody' hdn
                  exact ih (body'.dropWhile isWordChar)
                    (le_trans ((body'.dropWhile_sublist _).length_le) hlen)
                    hb2 hl2 st rest hc hs
                · have hwd' : isWordChar c = false := by simpa using hwd
                  rw [lexRun_errstep st c _
                    (lexClass_err _ htn' hsp' hq' hbs' hpt' hslash hstar hwd')]
                  exact ih body' hlen hb'
                    (if hbe : body' = [] then by simp [hbe, lastNotWord]
                     else lastNotWord_cons hlast hbe) st rest hc hs

/-- A block comment whose body contains no `/` or `*` and does not end in a
word character contributes nothing: tokens and state are as if it were absent. -/
theorem lexRun_block_comment_chunk (st : LexSt) (body rest : List Char)
    (hc : st.comment_open = false) (hs : st.string_open = false)
    (hb : body.all commentSafeChar = true) (hl : lastNotWord body = true) :
    lexRun st ('/' :: '*' :: (body ++ '*' :: '/' :: rest)) = lexRun st rest := by
  rw [lexRun_lcomment]
  have h1 := lexRun_in_comment body.length body le_rfl hb hl
    ⟨true, st.string, st.string_open⟩ rest rfl hs
  rw [show ({ st with comment_open := true } : LexSt) = ⟨true, st.string, st.string_open⟩
    from rfl, h1]
  have h2 : ({ (⟨true, st.string, st.string_open⟩ : LexSt) with comment_open := false } :
      LexSt) = ⟨false, st.string, st.string_open⟩ := rfl
  rw [h2]
  rw [show (⟨false, st.string, st.string_open⟩ : LexSt) = st from by
    cases st; simp_all]

/-- A line comment consumes everything to the end of the line and contributes
nothing, in every lexer state. -/
theorem lexRun_line_comment_chunk (st : LexSt) (body rest : List Char)
    (hb : body.all (fun d => !(d == nlC)) = true) :
    lexRun st ('/' :: '/' :: (body ++ nlC :: rest)) = lexRun st rest := by
  rw [lexRun_linecomment]
  rw [List.dropWhile_append_of_pos (by simpa [List.all_eq_true] using hb)]
  rw [show (nlC :: rest).dropWhile (fun d => !(d == nlC)) = nlC :: rest from by
    simp [List.dropWhile_cons]]
  exact lexRun_nl st rest

theorem odKeys_cons (k0 : Option (List Char)) (v0 : PyVal)
    (l : List (Option (List Char) × PyVal)) :
    odKeys ((k0, v0) :: l) = k0 :: odKeys l := rfl

/-- Assigning a fresh key appends it at the end, keeping all existing
bindings in place. -/
theorem odInsert_fresh :
    ∀ (l : List (Option (List Char) × PyVal)) (k : Option (List Char)) (v : PyVal),
      k ∉ odKeys l → odInsert l k v = l ++ [(k, v)] := by
  intro l
  induction l with
  | nil => intro k v _; rfl
  | cons p rest ih =>
    intro k v hk
    obtain ⟨k0, v0⟩ := p
    rw [odKeys_cons, List.mem_cons, not_or] at hk
    rw [odInsert, if_neg (fun he => hk.1 he.symm), ih k v hk.2]
    rfl

/-- Assigning an existing key overwrites its value in place: the key list is
unchanged — same keys, same order, no duplicate added. -/
theorem odKeys_insert_mem :
    ∀ (l : List (Option (List Char) × PyVal)) (k : Option (List Char)) (v : PyVal),
      k ∈ odKeys l → odKeys (odInsert l k v) = odKeys l := by
  intro l
  induction l with
  | nil => intro k v hk; simp [odKeys] at hk
  | cons p rest ih =>
    intro k v hk
    obtain ⟨k0, v0⟩ := p
    by_cases he : k0 = k
    · rw [odInsert, if_pos he]
      rw [odKeys_cons, odKeys_cons]
    · rw [odInsert, if_neg he]
      rw [odKeys_cons] at hk
      have hmem : k ∈ odKeys rest := by
        rcases List.mem_cons.mp hk with h | h
        · exact absurd h.symm he
        · exact h
      rw [odKeys_cons, odKeys_cons, ih k v hmem]

/-- Assignment followed by lookup returns the assigned value. -/
theorem odGet_insert :
    ∀ (l : List (Option (List Char) × PyVal)) (k : Option (List Char)) (v : PyVal),
      odGet (odInsert l k v) k = some v := by
  intro l
  induction l with
  | nil => intro k v; simp [odInsert, odGet]
  | cons p rest ih =>
    intro k v
    obtain ⟨k0, v0⟩ := p
    by_cases he : k0 = k
    · rw [odInsert, if_pos he, odGet, if_pos he]
    · rw [odInsert, if_neg he, odGet, if_neg he]
      exact ih k v

mutual

/-- The token stream the serializer's output produces for one value in value
position (after `key =`). -/
def valToks : PyVal → List Tok
  | .str s => [Tok.word s]
  | .pynone => []
  | .dict es => Tok.lbrace :: (entryToks es ++ [Tok.rbrace])
  | .arr vs => Tok.lparen :: (elemToks vs ++ [Tok.rparen])

/-- The token stream the serializer's output produces for the entries of a
dict: `key`, `=`, the value's tokens, `;`, for each entry in order. -/
def entryToks : List (Option (List Char) × PyVal) → List Tok
  | [] => []
  | (k, v) :: rest =>
    Tok.word (fmtKey k) :: Tok.equals :: (valToks v ++ (Tok.semicolon :: entryToks rest))

/-- The token stream for the elements of a list: `element`, `,` for each. -/
def elemToks : List PyVal → List Tok
  | [] => []
  | v :: rest => Tok.word (pyFormat v) :: Tok.comma :: elemToks rest

end

/-- A scalar lexeme that the engine round-trips verbatim: a safe bare word, or
a quoted string with a safe body. -/
def SafeScalar (s : List Char) : Prop :=
  safeBareB s = true ∨ ∃ body, s = quoteC :: body ++ [quoteC] ∧ body.all safeBodyChar = true

theorem SafeScalar_ne_nil {s : List Char} (h : SafeScalar s) : s ≠ [] := by
  rcases h with hb | ⟨body, rfl, _⟩
  · simp only [safeBareB, Bool.and_eq_true, Bool.not_eq_true'] at hb
    intro he
    rw [he] at hb
    simp at hb
  · simp

/-- Documents whose round trip through the serializer and parser is verbatim:
string keys and scalars are safe lexemes, keys are unique within each map, and
lists hold safe scalar strings. -/
inductive SafeVal : PyVal → Prop where
  | str : ∀ s, SafeScalar s → SafeVal (.str s)
  | dict : ∀ es, (∀ p ∈ es, ∃ k, p.1 = some k ∧ SafeScalar k) →
      (∀ p ∈ es, SafeVal p.2) → (odKeys es).Nodup → SafeVal (.dict es)
  | arr : ∀ vs, (∀ v ∈ vs, ∃ s, v = PyVal.str s ∧ SafeScalar s) → SafeVal (.arr vs)

mutual

/-- Structural size of a value, the measure for the nested inductions below. -/
def valSize : PyVal → Nat
  | .str _ => 1
  | .pynone => 1
  | .dict es => 1 + entSize es
  | .arr vs => 1 + vs.length

/-- Structural size of a dict's entry list. -/
def entSize : List (Option (List Char) × PyVal) → Nat
  | [] => 0
  | (_, v) :: rest => 1 + valSize v + entSize rest

end

/-- Processing the element tokens of a list context: each element is buffered
into the pending register by its Word token and appended by the following
Comma, extending the list under construction in order. -/
theorem parseLex_elems :
    ∀ (vs : List PyVal), (∀ v ∈ vs, ∃ s, v = PyVal.str s ∧ SafeScalar s) →
      ∀ (l0 : List PyVal) (att : Option (Option (List Char))) (stk : List Frame)
        (ts : List Tok),
        parseLex (elemToks vs ++ ts) (⟨.carr l0, att⟩ :: stk) Option.none =
          parseLex ts (⟨.carr (l0 ++ vs), att⟩ :: stk) Option.none := by
  intro vs
  induction vs with
  | nil => intro _ l0 att stk ts; simp [elemToks]
  | cons v rest ih =>
    intro hvs l0 att stk ts
    obtain ⟨s, rfl, hs⟩ := hvs v (by simp)
    have hne : s.isEmpty = false := by
      cases hsn : s with
      | nil => exact absurd hsn (SafeScalar_ne_nil hs)
      | cons a t => rfl
    rw [elemToks]
    have h1 : parseLex (Tok.word s :: (Tok.comma :: (elemToks rest ++ ts)))
        (⟨.carr l0, att⟩ :: stk) Option.none =
        parseLex (Tok.comma :: (elemToks rest ++ ts)) (⟨.carr l0, att⟩ :: stk) (some s) := by
      simp [parseLex, falsy]
    have h2 : parseLex (Tok.comma :: (elemToks rest ++ ts))
        (⟨.carr l0, att⟩ :: stk) (some s) =
        parseLex (elemToks rest ++ ts) (⟨.carr (l0 ++ [PyVal.str s]), att⟩ :: stk)
          Option.none := by
      simp [parseLex, optToVal]
    rw [show pyFormat (PyVal.str s) = s from rfl, List.cons_append, List.cons_append,
      h1, h2, ih (fun x hx => hvs x (by simp [hx])) (l0 ++ [PyVal.str s]) att stk ts]
    simp

theorem pstep_word_pending (s : List Char) (ts : List Tok) (stack : List Frame) :
    parseLex (Tok.word s :: ts) stack Option.none = parseLex ts stack (some s) := by
  simp [parseLex, falsy]

theorem pstep_equals {s : List Char} (hne : s.isEmpty = false) (ts : List Tok)
    (stack : List Frame) :
    parseLex (Tok.equals :: ts) stack (some s) = parseLex ts stack (some s) := by
  simp [parseLex, falsy, hne]

theorem pstep_word_store {s : List Char} (hne : s.isEmpty = false) (w : List Char)
    (ts : List Tok) (l0 : List (Option (List Char) × PyVal))
    (att : Option (Option (List Char))) (stk : List Frame) :
    parseLex (Tok.word w :: ts) (⟨.cdict l0, att⟩ :: stk) (some s) =
      parseLex ts (⟨.cdict (odInsert l0 (some s) (.str w)), att⟩ :: stk) Option.none := by
  simp [parseLex, falsy, hne]

theorem pstep_semi (ts : List Tok) (stack : List Frame) (cur : Option (List Char)) :
    parseLex (Tok.semicolon :: ts) stack cur = parseLex ts stack cur := by
  simp [parseLex]

theorem pstep_lbrace_push (ts : List Tok) (l0 : List (Option (List Char) × PyVal))
    (att : Option (Option (List Char))) (stk : List Frame) (cur : Option (List Char)) :
    parseLex (Tok.lbrace :: ts) (⟨.cdict l0, att⟩ :: stk) cur =
      parseLex ts (⟨.cdict [], some cur⟩ :: ⟨.cdict l0, att⟩ :: stk) Option.none := by
  simp [parseLex]

theorem pstep_rbrace_attach (ts : List Tok) (f g : Frame) (gs : List Frame)
    (cur : Option (List Char)) :
    parseLex (Tok.rbrace :: ts) (f :: g :: gs) cur = parseLex ts (attachUp g f :: gs) cur := by
  simp [parseLex]

theorem pstep_lparen_push (ts : List Tok) (l0 : List (Option (List Char) × PyVal))
    (att : Option (Option (List Char))) (stk : List Frame) (cur : Option (List Char)) :
    parseLex (Tok.lparen :: ts) (⟨.cdict l0, att⟩ :: stk) cur =
      parseLex ts (⟨.carr [], some cur⟩ :: ⟨.cdict l0, att⟩ :: stk) Option.none := by
  simp [parseLex]

theorem pstep_rparen_none (ts : List Tok) (f g : Frame) (gs : List Frame) :
    parseLex (Tok.rparen :: ts) (f :: g :: gs) Option.none =
      parseLex ts (attachUp g f :: gs) Option.none := by
  simp [parseLex]

/-- Processing the serialized tokens of a dict's entries in a dict context:
each key is buffered into the pending register, Equals leaves it in place, and
the value is stored under it, extending the map under construction in order
(fresh keys append; `odInsert` is the ordered-dict assignment). -/
theorem parseLex_entries :
    ∀ (n : Nat) (es : List (Option (List Char) × PyVal)), entSize es ≤ n →
      (∀ p ∈ es, ∃ k, p.1 = some k ∧ SafeScalar k) →
      (∀ p ∈ es, SafeVal p.2) → (odKeys es).Nodup →
      ∀ (l0 : List (Option (List Char) × PyVal)) (att : Option (Option (List Char)))
        (stk : List Frame) (ts : List Tok),
        (∀ p ∈ es, p.1 ∉ odKeys l0) →
        parseLex (entryToks es ++ ts) (⟨.cdict l0, att⟩ :: stk) Option.none =
          parseLex ts (⟨.cdict (l0 ++ es), att⟩ :: stk) Option.none := by
  intro n
  induction n with
  | zero =>
    intro es hn _ _ _ l0 att stk ts _
    match es with
    | [] => simp [entryToks]
    | (k, v) :: rest => simp [entSize] at hn
  | succ n ih =>
    intro es hn hkeys hvals hnodup l0 att stk ts hfresh
    match es with
    | [] => simp [entryToks]
    | (k, v) :: rest =>
      obtain ⟨ks, hk, hsk⟩ := hkeys (k, v) (by simp)
      simp only at hk
      subst hk
      have hne : ks.isEmpty = false := by
        cases hsn : ks with
        | nil => exact absurd hsn (SafeScalar_ne_nil hsk)
        | cons a t => rfl
      have hfrk : (some ks) ∉ odKeys l0 := hfresh (some ks, v) (by simp)
      have hrest_fresh : ∀ p ∈ rest, p.1 ∉ odKeys (l0 ++ [(some ks, v)]) := by
        intro p hp
        have h1 : p.1 ∉ odKeys l0 := hfresh p (by simp [hp])
        have h2 : p.1 ≠ some ks := by
          intro he
          have hks : (some ks) ∉ odKeys rest := by
            have := hnodup
            rw [odKeys_cons] at this
            exact (List.nodup_cons.mp this).1
          apply hks
          rw [← he]
          exact List.mem_map_of_mem Prod.fst hp
        have hodk : odKeys (l0 ++ [(some ks, v)]) = odKeys l0 ++ [some ks] := by
          simp [odKeys]
        intro hm
        rw [hodk] at hm
        rcases List.mem_append.mp hm with h | h
        · exact h1 h
        · exact h2 (by simpa using h)
      have hrest_keys : ∀ p ∈ rest, ∃ k2, p.1 = some k2 ∧ SafeScalar k2 :=
        fun p hp => hkeys p (by simp [hp])
      have hrest_vals : ∀ p ∈ rest, SafeVal p.2 := fun p hp => hvals p (by simp [hp])
      have hrest_nodup : (odKeys rest).Nodup := by
        have := hnodup
        rw [odKeys_cons] at this
        exact (List.nodup_cons.mp this).2
      have hassoc : l0 ++ (some ks, v) :: rest = (l0 ++ [(some ks, v)]) ++ rest := by simp
      have hsv : SafeVal v := hvals (some ks, v) (by simp)
      rw [entryToks]
      rw [show fmtKey (some ks) = ks from rfl]
      rw [List.cons_append, List.cons_append, pstep_word_pending, pstep_equals hne]
      cases hsv with
      | str s hs =>
        rw [show valToks (PyVal.str s) = [Tok.word s] from rfl]
        simp only [List.cons_append, List.nil_append]
        rw [pstep_word_store hne, pstep_semi]
        rw [odInsert_fresh l0 (some ks) (PyVal.str s) hfrk]
        have hrn : entSize rest ≤ n := by simp [entSize, valSize] at hn; omega
        rw [ih rest hrn hrest_keys hrest_vals hrest_nodup (l0 ++ [(some ks, PyVal.str s)])
          att stk ts hrest_fresh, hassoc]
      | dict ve hek hev hnd =>
        rw [show valToks (PyVal.dict ve) = Tok.lbrace :: (entryToks ve ++ [Tok.rbrace])
          from rfl]
        simp only [List.cons_append, List.append_assoc, List.nil_append]
        rw [pstep_lbrace_push]
        have hin : entSize ve ≤ n := by simp [entSize, valSize] at hn; omega
        rw [ih ve hin hek hev hnd [] (some (some ks)) (⟨.cdict l0, att⟩ :: stk)
          (Tok.rbrace :: (Tok.semicolon :: (entryToks rest ++ ts)))
          (by intro p hp; simp [odKeys])]
        rw [pstep_rbrace_attach]
        rw [show attachUp ⟨.cdict l0, att⟩ ⟨.cdict ([] ++ ve), some (some ks)⟩ =
          (⟨.cdict (odInsert l0 (some ks) (PyVal.dict ve)), att⟩ : Frame) from by
            simp [attachUp, toVal]]
        rw [pstep_semi, odInsert_fresh l0 (some ks) (PyVal.dict ve) hfrk]
        have hrn : entSize rest ≤ n := by simp [entSize, valSize] at hn; omega
        rw [ih rest hrn hrest_keys hrest_vals hrest_nodup (l0 ++ [(some ks, PyVal.dict ve)])
          att stk ts hrest_fresh, hassoc]
      | arr vs hvs =>
        rw [show valToks (PyVal.arr vs) = Tok.lparen :: (elemToks vs ++ [Tok.rparen])
          from rfl]
        simp only [List.cons_append, List.append_assoc, List.nil_append]
        rw [pstep_lparen_push]
        rw [parseLex_elems vs hvs [] (some (some ks)) (⟨.cdict l0, att⟩ :: stk)
          (Tok.rparen :: (Tok.semicolon :: (entryToks rest ++ ts)))]
        rw [pstep_rparen_none]
        rw [show attachUp ⟨.cdict l0, att⟩ ⟨.carr ([] ++ vs), some (some ks)⟩ =
          (⟨.cdict (odInsert l0 (some ks) (PyVal.arr vs)), att⟩ : Frame) from by
            simp [attachUp, toVal]]
        rw [pstep_semi, odInsert_fresh l0 (some ks) (PyVal.arr vs) hfrk]
        have hrn : entSize rest ≤ n := by simp [entSize, valSize] at hn; omega
        rw [ih rest hrn hrest_keys hrest_vals hrest_nodup (l0 ++ [(some ks, PyVal.arr vs)])
          att stk ts hrest_fresh, hassoc]

theorem lexRun_wIndent (w : Writer) (st : LexSt) (cs : List Char) :
    lexRun st (wIndent w ++ cs) = lexRun st cs := by
  unfold wIndent
  by_cases h : w.condensed
  · rw [if_pos h]; rfl
  · rw [if_neg h]; exact lexRun_tabs w.indent st cs

theorem lexRun_wNewline (w : Writer) (st : LexSt) (cs : List Char) :
    lexRun st (wNewline w ++ cs) = lexRun st cs := by
  unfold wNewline
  by_cases h : w.condensed
  · rw [if_pos h]; rfl
  · rw [if_neg h]; exact lexRun_nl st cs

theorem lexRun_opt_indent (b : Bool) (w : Writer) (st : LexSt) (cs : List Char) :
    lexRun st ((if b then wIndent w else []) ++ cs) = lexRun st cs := by
  cases b
  · rfl
  · exact lexRun_wIndent w st cs

theorem lexRun_opt_newline (b : Bool) (w : Writer) (st : LexSt) (cs : List Char) :
    lexRun st ((if b then wNewline w else []) ++ cs) = lexRun st cs := by
  cases b
  · rfl
  · exact lexRun_wNewline w st cs

theorem hnw_cons {c : Char} (l : List Char) (h : isWordChar c = false) :
    headNotWord (c :: l) = true := by
  rw [show headNotWord (c :: l) = !isWordChar c from rfl, h]
  rfl

theorem lexRun_sp (st : LexSt) (cs : List Char) (hso : st.string_open = false) :
    lexRun st (' ' :: cs) = lexRun st cs :=
  lexRun_space st cs (by decide) (by decide) hso

theorem lexRun_eqC (st : LexSt) (cs : List Char) (hc : st.comment_open = false)
    (hso : st.string_open = false) :
    lexRun st ('=' :: cs) = Tok.equals :: lexRun st cs := by
  rw [lexRun_punct st cs (by decide) hc hso]; rfl

theorem lexRun_semiC (st : LexSt) (cs : List Char) (hc : st.comment_open = false)
    (hso : st.string_open = false) :
    lexRun st (';' :: cs) = Tok.semicolon :: lexRun st cs := by
  rw [lexRun_punct st cs (by decide) hc hso]; rfl

theorem lexRun_commaC (st : LexSt) (cs : List Char) (hc : st.comment_open = false)
    (hso : st.string_open = false) :
    lexRun st (',' :: cs) = Tok.comma :: lexRun st cs := by
  rw [lexRun_punct st cs (by decide) hc hso]; rfl

theorem lexRun_lparC (st : LexSt) (cs : List Char) (hc : st.comment_open = false)
    (hso : st.string_open = false) :
    lexRun st ('(' :: cs) = Tok.lparen :: lexRun st cs := by
  rw [lexRun_punct st cs (by decide) hc hso]; rfl

theorem lexRun_rparC (st : LexSt) (cs : List Char) (hc : st.comment_open = false)
    (hso : st.string_open = false) :
    lexRun st (')' :: cs) = Tok.rparen :: lexRun st cs := by
  rw [lexRun_punct st cs (by decide) hc hso]; rfl

theorem lexRun_lbrC (st : LexSt) (cs : List Char) (hc : st.comment_open = false)
    (hso : st.string_open = false) :
    lexRun st ('\x7b' :: cs) = Tok.lbrace :: lexRun st cs := by
  rw [lexRun_punct st cs (by decide) hc hso]; rfl

theorem lexRun_rbrC (st : LexSt) (cs : List Char) (hc : st.comment_open = false)
    (hso : st.string_open = false) :
    lexRun st ('\x7d' :: cs) = Tok.rbrace :: lexRun st cs := by
  rw [lexRun_punct st cs (by decide) hc hso]; rfl

/-- A safe scalar lexeme (bare or quoted) followed by a non-word boundary
lexes, outside comments and strings, to one Word token carrying it verbatim. -/
theorem lexRun_scalar_chunk (st : LexSt) {s rest : List Char} (hs : SafeScalar s)
    (hr : headNotWord rest = true) (hc : st.comment_open = false)
    (hso : st.string_open = false) :
    lexRun st (s ++ rest) = Tok.word s :: lexRun st rest := by
  rcases hs with hb | ⟨body, rfl, hbody⟩
  · exact lexRun_word_chunk st hb hr hc hso
  · rw [show (quoteC :: body ++ [quoteC]) ++ rest = quoteC :: (body ++ quoteC :: rest) by
      simp]
    exact lexRun_quoted_chunk st hbody hc hso

/-- The serialized elements of a list of safe scalars lex to their element
tokens in order. -/
theorem writeElems_lex :
    ∀ (vs : List PyVal), (∀ v ∈ vs, ∃ s, v = PyVal.str s ∧ SafeScalar s) →
      ∀ (w : Writer) (st : LexSt) (tail : List Char), st.comment_open = false →
        st.string_open = false →
        lexRun st (writeElems vs w ++ tail) = elemToks vs ++ lexRun st tail := by
  intro vs
  induction vs with
  | nil => intro _ w st tail _ _; simp [writeElems, elemToks]
  | cons v rest ih =>
    intro hvs w st tail hc hso
    obtain ⟨s, rfl, hs⟩ := hvs (v) (by simp)
    rw [writeElems, elemToks]
    rw [show pyFormat (PyVal.str s) = s from rfl]
    simp only [List.append_assoc, List.cons_append, List.nil_append,
      show (", ".data : List Char) = [',', ' '] from rfl]
    rw [lexRun_wIndent]
    rw [lexRun_scalar_chunk st hs (hnw_cons _ (by decide)) hc hso]
    rw [lexRun_commaC st _ hc hso, lexRun_sp st _ hso, lexRun_wNewline]
    rw [ih (fun x hx => hvs x (by simp [hx])) w st tail hc hso]

/-- The bytes `writeEntries` emits for safe entries: the write succeeds, and
the emitted bytes lex to exactly the entry token stream, leaving the lexer
state unchanged, whatever the writer's indentation and condensed mode do to
the whitespace. -/
theorem writeLex :
    ∀ (n : Nat) (es : List (Option (List Char) × PyVal)), entSize es ≤ n →
      (∀ p ∈ es, ∃ k, p.1 = some k ∧ SafeScalar k) →
      (∀ p ∈ es, SafeVal p.2) →
      ∀ (w : Writer), ∃ out w2, writeEntries es w = (out, .ok w2) ∧
        (∀ (st : LexSt) (tail : List Char), st.comment_open = false →
          st.string_open = false →
          lexRun st (out ++ tail) = entryToks es ++ lexRun st tail) := by
  intro n
  induction n with
  | zero =>
    intro es hn _ _ w
    match es with
    | [] => exact ⟨[], w, rfl, by intro st tail _ _; simp [entryToks]⟩
    | (k, v) :: rest => simp [entSize] at hn
  | succ n ih =>
    intro es hn hkeys hvals w
    match es with
    | [] => exact ⟨[], w, rfl, by intro st tail _ _; simp [entryToks]⟩
    | (k, v) :: rest =>
      obtain ⟨ks, hk, hsk⟩ := hkeys (k, v) (by simp)
      simp only at hk
      subst hk
      have hrest_keys : ∀ p ∈ rest, ∃ k2, p.1 = some k2 ∧ SafeScalar k2 :=
        fun p hp => hkeys p (by simp [hp])
      have hrest_vals : ∀ p ∈ rest, SafeVal p.2 := fun p hp => hvals p (by simp [hp])
      have hsv : SafeVal v := hvals (some ks, v) (by simp)
      cases hsv with
      | str sv hssv =>
        have hrn : entSize rest ≤ n := by simp [entSize, valSize] at hn; omega
        obtain ⟨outR, w2, hWR, hLexR⟩ := ih rest hrn hrest_keys hrest_vals w
        refine ⟨(wIndent w ++ fmtKey (some ks) ++ " = ".data ++ sv ++ "; ".data ++
          wNewline w) ++ outR, w2, ?_, ?_⟩
        · simp only [writeEntries, hWR]
        · intro st tail hc hso
          rw [entryToks, show fmtKey (some ks) = ks from rfl]
          simp only [List.append_assoc, List.cons_append, List.nil_append,
            show (" = ".data : List Char) = [' ', '=', ' '] from rfl,
            show ("; ".data : List Char) = [';', ' '] from rfl]
          rw [lexRun_wIndent]
          rw [lexRun_scalar_chunk st hsk (hnw_cons _ (by decide)) hc hso]
          rw [lexRun_sp st _ hso, lexRun_eqC st _ hc hso, lexRun_sp st _ hso]
          rw [lexRun_scalar_chunk st hssv (hnw_cons _ (by decide)) hc hso]
          rw [lexRun_semiC st _ hc hso, lexRun_sp st _ hso, lexRun_wNewline]
          rw [hLexR st tail hc hso]
          rfl
      | dict ve hek hev hnd =>
        have hin : entSize ve ≤ n := by simp [entSize, valSize] at hn; omega
        have hrn : entSize rest ≤ n := by simp [entSize, valSize] at hn; omega
        obtain ⟨body, w3, hWI, hLexI⟩ := ih ve hin hek hev
          { (if isaCondensed ve then { w with condensed := true } else w) with
            indent := (if isaCondensed ve then { w with condensed := true } else w).indent + 1 }
        set condensed := isaCondensed ve with hcnd
        set w1 : Writer := if condensed then { w with condensed := true } else w with hw1
        set w2 : Writer := { w1 with indent := w1.indent + 1 } with hw2
        set w4 : Writer := { w3 with indent := w3.indent - 1 } with hw4
        set w5 : Writer := if condensed then { w4 with condensed := false } else w4 with hw5
        obtain ⟨outR, w6, hWR, hLexR⟩ := ih rest hrn hrest_keys hrest_vals w5
        refine ⟨(if condensed then wIndent w else []) ++
          (wIndent w1 ++ fmtKey (some ks) ++ " = \x7b ".data ++ wNewline w1) ++ body ++
          (wIndent w4 ++ "\x7d; ".data ++ wNewline w4) ++
          (if condensed then wNewline w5 else []) ++ outR, w6, ?_, ?_⟩
        · simp only [writeEntries, ← hcnd, ← hw1, ← hw2]
          rw [show recursiveWrite (PyVal.dict ve) w2 = writeEntries ve w2 from rfl, hWI]
          simp only [← hw4, ← hw5, hWR]
          try simp [List.append_assoc]
        · intro st tail hc hso
          rw [entryToks, show fmtKey (some ks) = ks from rfl,
            show valToks (PyVal.dict ve) = Tok.lbrace :: (entryToks ve ++ [Tok.rbrace])
              from rfl]
          simp only [List.append_assoc, List.cons_append, List.nil_append,
            show (" = \x7b ".data : List Char) = [' ', '=', ' ', '\x7b', ' '] from rfl,
            show ("\x7d; ".data : List Char) = ['\x7d', ';', ' '] from rfl]
          rw [lexRun_opt_indent]
          rw [lexRun_wIndent]
          rw [lexRun_scalar_chunk st hsk (hnw_cons _ (by decide)) hc hso]
          rw [lexRun_sp st _ hso, lexRun_eqC st _ hc hso, lexRun_sp st _ hso]
          rw [lexRun_lbrC st _ hc hso, lexRun_sp st _ hso, lexRun_wNewline]
          rw [hLexI st _ hc hso]
          rw [lexRun_wIndent]
          rw [lexRun_rbrC st _ hc hso, lexRun_semiC st _ hc hso, lexRun_sp st _ hso,
            lexRun_wNewline, lexRun_opt_newline]
          rw [hLexR st tail hc hso]
          try simp
      | arr vs hvss =>
        have hrn : entSize rest ≤ n := by simp [entSize, valSize] at hn; omega
        obtain ⟨outR, w6, hWR, hLexR⟩ := ih rest hrn hrest_keys hrest_vals
          { { w with indent := w.indent + 1 } with
            indent := { w with indent := w.indent + 1 }.indent - 1 }
        refine ⟨(wIndent w ++ fmtKey (some ks) ++ " = ( ".data ++ wNewline w) ++
          writeElems vs { w with indent := w.indent + 1 } ++
          (wIndent { { w with indent := w.indent + 1 } with
              indent := { w with indent := w.indent + 1 }.indent - 1 } ++ "); ".data ++
            wNewline { { w with indent := w.indent + 1 } with
              indent := { w with indent := w.indent + 1 }.indent - 1 }) ++ outR, w6, ?_, ?_⟩
        · simp only [writeEntries]
          rw [show recursiveWrite (PyVal.arr vs) { w with indent := w.indent + 1 } =
            (writeElems vs { w with indent := w.indent + 1 },
              Except.ok { w with indent := w.indent + 1 }) from rfl]
          simp only [hWR]
          try simp [List.append_assoc]
        · intro st tail hc hso
          rw [entryToks, show fmtKey (some ks) = ks from rfl,
            show valToks (PyVal.arr vs) = Tok.lparen :: (elemToks vs ++ [Tok.rparen])
              from rfl]
          simp only [List.append_assoc, List.cons_append, List.nil_append,
            show (" = ( ".data : List Char) = [' ', '=', ' ', '(', ' '] from rfl,
            show ("); ".data : List Char) = [')', ';', ' '] from rfl]
          rw [lexRun_wIndent]
          rw [lexRun_scalar_chunk st hsk (hnw_cons _ (by decide)) hc hso]
          rw [lexRun_sp st _ hso, lexRun_eqC st _ hc hso, lexRun_sp st _ hso]
          rw [lexRun_lparC st _ hc hso, lexRun_sp st _ hso, lexRun_wNewline]
          rw [writeElems_lex vs hvss _ st _ hc hso]
          rw [lexRun_wIndent]
          rw [lexRun_rparC st _ hc hso, lexRun_semiC st _ hc hso, lexRun_sp st _ hso,
            lexRun_wNewline]
          rw [hLexR st tail hc hso]
          try simp

/-- The fixed header `Writer.__init__` writes is a line comment plus the
opening brace: it lexes to a single OpenBrace token. -/
theorem lexRun_header (cs : List Char) :
    lexRun cleanSt (headerChars ++ cs) = Tok.lbrace :: lexRun cleanSt cs := by
  rw [show headerChars ++ cs =
    '/' :: '/' :: (" !$*UTF8*$!".data ++ (nlC :: (obC :: nlC :: cs))) from by
      simp [headerChars]]
  rw [lexRun_line_comment_chunk cleanSt (" !$*UTF8*$!".data) (obC :: nlC :: cs) (by decide)]
  rw [lexRun_punct cleanSt (nlC :: cs) (by decide) rfl rfl]
  rw [lexRun_nl]
  rfl

/-- Structural round-trip: serializing a safe document and parsing the
resulting bytes yields the document back — same keys in insertion order, same
nesting kinds, identical scalar text. -/
theorem roundTrip_safe (es : List (Option (List Char) × PyVal))
    (h : SafeVal (.dict es)) : roundTrip (.dict es) = .ok (some (.dict es)) := by
  cases h with
  | dict _ hkeys hvals hnodup =>
    obtain ⟨out, w2, hW, hLex⟩ := writeLex (entSize es) es le_rfl hkeys hvals ⟨1, false⟩
    have hser : serializeDoc (.dict es) = .ok (headerChars ++ out ++ [cbC, nlC]) := by
      unfold serializeDoc exportProject
      rw [show recursiveWrite (PyVal.dict es) ⟨1, false⟩ = writeEntries es ⟨1, false⟩
        from rfl, hW]
    unfold roundTrip
    rw [hser]
    show parseToks (lexRun cleanSt (headerChars ++ out ++ [cbC, nlC])) = _
    rw [List.append_assoc, lexRun_header]
    rw [hLex cleanSt [cbC, nlC] rfl rfl]
    rw [show lexRun cleanSt [cbC, nlC] = [Tok.rbrace] from rfl]
    unfold parseToks
    rw [show parseLex (Tok.lbrace :: (entryToks es ++ [Tok.rbrace])) [] Option.none =
      parseLex (entryToks es ++ [Tok.rbrace]) [⟨.cdict [], Option.none⟩] Option.none from by
        simp [parseLex]]
    rw [parseLex_entries (entSize es) es le_rfl hkeys hvals hnodup [] Option.none []
      [Tok.rbrace] (by intro p hp; simp [odKeys])]
    simp [parseLex, toVal]

/-- Values none of whose nested map values triggers condensation: inside such
a value `recursive_write` never flips the condensed flag. -/
inductive NoCondBelow : PyVal → Prop where
  | str : ∀ s, NoCondBelow (.str s)
  | arr : ∀ vs, NoCondBelow (.arr vs)
  | dict : ∀ es, (∀ p ∈ es, NoCondBelow p.2) →
      (∀ p ∈ es, ∀ ve, p.2 = PyVal.dict ve → isaCondensed ve = false) →
      NoCondBelow (.dict es)

/-- A character of a safe scalar is never a newline or a tab. -/
theorem cleanChar {c : Char}
    (h : isWordChar c = true ∨ c = ' ' ∨ isPunct c = true ∨ c = quoteC) :
    (!(c == nlC) && !(c == tabC)) = true := by
  have e1 : nlC.toNat = 10 := rfl
  have e2 : tabC.toNat = 9 := rfl
  rcases h with h | h | h | h
  · have := isWordChar_nat h
    simp only [Bool.and_eq_true, Bool.not_eq_true', beq_eq_false_iff_ne]
    exact ⟨char_ne_of_toNat_ne (by omega), char_ne_of_toNat_ne (by omega)⟩
  · subst h; decide
  · have := isPunct_nat h
    simp only [Bool.and_eq_true, Bool.not_eq_true', beq_eq_false_iff_ne]
    exact ⟨char_ne_of_toNat_ne (by omega), char_ne_of_toNat_ne (by omega)⟩
  · subst h; decide

/-- Safe scalars contain no newline or tab bytes. -/
theorem scalar_clean {s : List Char} (h : SafeScalar s) :
    s.all (fun c => !(c == nlC) && !(c == tabC)) = true := by
  rcases h with hb | ⟨body, rfl, hbody⟩
  · simp only [safeBareB, Bool.and_eq_true, Bool.not_eq_true'] at hb
    rw [List.all_eq_true]
    intro c hc
    exact cleanChar (Or.inl (List.all_eq_true.mp hb.1.1.1.2 c hc))
  · rw [List.all_eq_true]
    intro c hc
    rcases List.mem_cons.mp hc with rfl | hc2
    · exact cleanChar (Or.inr (Or.inr (Or.inr rfl)))
    · rcases List.mem_append.mp hc2 with hc3 | hc3
      · have := List.all_eq_true.mp hbody c hc3
        cases hpt : isPunct c with
        | true => exact cleanChar (Or.inr (Or.inr (Or.inl hpt)))
        | false =>
          cases hsp : c == ' ' with
          | true => exact cleanChar (Or.inr (Or.inl (by simpa using hsp)))
          | false =>
            simp only [safeBodyChar, hpt, hsp, Bool.or_false, Bool.and_eq_true] at this
            exact cleanChar (Or.inl this.1.1)
      · simp at hc3
        subst hc3
        exact cleanChar (Or.inr (Or.inr (Or.inr rfl)))

/-- Writing entries with no condensing map anywhere below returns the writer
unchanged, and while condensed mode is on it emits no newline or tab bytes. -/
theorem writeNoCond :
    ∀ (n : Nat) (es : List (Option (List Char) × PyVal)), entSize es ≤ n →
      (∀ p ∈ es, ∃ k, p.1 = some k ∧ SafeScalar k) →
      (∀ p ∈ es, SafeVal p.2) →
      (∀ p ∈ es, NoCondBelow p.2) →
      (∀ p ∈ es, ∀ ve, p.2 = PyVal.dict ve → isaCondensed ve = false) →
      ∀ (w : Writer), ∃ out, writeEntries es w = (out, .ok w) ∧
        (w.condensed = true → out.all (fun c => !(c == nlC) && !(c == tabC)) = true) := by
  intro n
  induction n with
  | zero =>
    intro es hn _ _ _ _ w
    match es with
    | [] => exact ⟨[], rfl, by intro _; rfl⟩
    | (k, v) :: rest => simp [entSize] at hn
  | succ n ih =>
    intro es hn hkeys hvals hncb hncd w
    obtain ⟨i, cd⟩ := w
    match es with
    | [] => exact ⟨[], rfl, by intro _; rfl⟩
    | (k, v) :: rest =>
      obtain ⟨ks, hk, hsk⟩ := hkeys (k, v) (by simp)
      simp only at hk
      subst hk
      have hrn : entSize rest ≤ n := by
        cases v <;> simp [entSize, valSize] at hn ⊢ <;> omega
      have hrk : ∀ p ∈ rest, ∃ k2, p.1 = some k2 ∧ SafeScalar k2 :=
        fun p hp => hkeys p (by simp [hp])
      have hrv : ∀ p ∈ rest, SafeVal p.2 := fun p hp => hvals p (by simp [hp])
      have hrb : ∀ p ∈ rest, NoCondBelow p.2 := fun p hp => hncb p (by simp [hp])
      have hrd : ∀ p ∈ rest, ∀ ve, p.2 = PyVal.dict ve → isaCondensed ve = false :=
        fun p hp => hncd p (by simp [hp])
      obtain ⟨outR, hWR, hCR⟩ := ih rest hrn hrk hrv hrb hrd ⟨i, cd⟩
      have hwi : cd = true →
          (wIndent ⟨i, cd⟩).all (fun c => !(c == nlC) && !(c == tabC)) = true := by
        intro hcd; simp [wIndent, hcd]
      have hwn : cd = true →
          (wNewline ⟨i, cd⟩).all (fun c => !(c == nlC) && !(c == tabC)) = true := by
        intro hcd; simp [wNewline, hcd]
      have hsv : SafeVal v := hvals (some ks, v) (by simp)
      cases hsv with
      | str sv hssv =>
        refine ⟨(wIndent ⟨i, cd⟩ ++ fmtKey (some ks) ++ " = ".data ++ sv ++ "; ".data ++
          wNewline ⟨i, cd⟩) ++ outR, ?_, ?_⟩
        · simp only [writeEntries, hWR]
        · intro hcd
          simp only [List.all_append, Bool.and_eq_true]
          exact ⟨⟨⟨⟨⟨⟨hwi hcd, scalar_clean hsk⟩, by decide⟩, scalar_clean hssv⟩,
            by decide⟩, hwn hcd⟩, hCR hcd⟩
      | dict ve hek hev hnd =>
        have hcnd : isaCondensed ve = false :=
          hncd (some ks, PyVal.dict ve) (by simp) ve rfl
        have hbel : NoCondBelow (PyVal.dict ve) := hncb (some ks, PyVal.dict ve) (by simp)
        have hbe : ∀ p ∈ ve, NoCondBelow p.2 := by
          cases hbel with
          | dict _ h1 _ => exact h1
        have hbd : ∀ p ∈ ve, ∀ ve2, p.2 = PyVal.dict ve2 → isaCondensed ve2 = false := by
          cases hbel with
          | dict _ _ h2 => exact h2
        have hie : entSize ve ≤ n := by simp [entSize, valSize] at hn; omega
        obtain ⟨body, hWI, hCI⟩ := ih ve hie hek hev hbe hbd ⟨i + 1, cd⟩
        refine ⟨(wIndent ⟨i, cd⟩ ++ fmtKey (some ks) ++ " = \x7b ".data ++
          wNewline ⟨i, cd⟩) ++ body ++
          (wIndent ⟨i, cd⟩ ++ "\x7d; ".data ++ wNewline ⟨i, cd⟩) ++ outR, ?_, ?_⟩
        · simp only [writeEntries, hcnd, Bool.false_eq_true, if_false, List.nil_append]
          rw [show recursiveWrite (PyVal.dict ve) (⟨i + 1, cd⟩ : Writer) =
            writeEntries ve ⟨i + 1, cd⟩ from rfl, hWI]
          simp only [Nat.add_sub_cancel]
          rw [hWR]
          simp [List.append_assoc]
        · intro hcd
          have hbody := hCI hcd
          simp only [List.all_append, Bool.and_eq_true]
          exact ⟨⟨⟨⟨⟨⟨hwi hcd, scalar_clean hsk⟩, by decide⟩, hwn hcd⟩, hbody⟩,
            ⟨⟨hwi hcd, by decide⟩, hwn hcd⟩⟩, hCR hcd⟩
      | arr vs hvss =>
        refine ⟨(wIndent ⟨i, cd⟩ ++ fmtKey (some ks) ++ " = ( ".data ++
          wNewline ⟨i, cd⟩) ++ writeElems vs ⟨i + 1, cd⟩ ++
          (wIndent ⟨i, cd⟩ ++ "); ".data ++ wNewline ⟨i, cd⟩) ++ outR, ?_, ?_⟩
        · simp only [writeEntries]
          rw [show recursiveWrite (PyVal.arr vs) (⟨i + 1, cd⟩ : Writer) =
            (writeElems vs ⟨i + 1, cd⟩, Except.ok (⟨i + 1, cd⟩ : Writer)) from rfl]
          simp only [Nat.add_sub_cancel]
          rw [hWR]
          try simp [List.append_assoc]
        · intro hcd
          have hcd2 : cd = true := hcd
          have helems : ∀ (vs2 : List PyVal), (∀ x ∈ vs2, ∃ s2, x = PyVal.str s2 ∧
              SafeScalar s2) →
              (writeElems vs2 ⟨i + 1, cd⟩).all
                (fun c => !(c == nlC) && !(c == tabC)) = true := by
            intro vs2
            induction vs2 with
            | nil => intro _; rfl
            | cons x rest2 ih2 =>
              intro hall
              obtain ⟨s2, rfl, hs2⟩ := hall x (by simp)
              rw [writeElems]
              simp only [List.all_append, Bool.and_eq_true]
              refine ⟨⟨⟨⟨?_, by simpa using scalar_clean hs2⟩, by decide⟩, ?_⟩,
                ih2 (fun y hy => hall y (by simp [hy]))⟩
              · simp [wIndent, hcd2]
              · simp [wNewline, hcd2]
          simp only [List.all_append, Bool.and_eq_true]
          exact ⟨⟨⟨⟨⟨⟨hwi hcd, scalar_clean hsk⟩, by decide⟩, hwn hcd⟩, helems vs hvss⟩,
            ⟨⟨hwi hcd, by decide⟩, hwn hcd⟩⟩, hCR hcd⟩

/-! ## The claims -/

/-- C1 (corrected). Round-trip structural idempotence does not hold for every
document built from producible lexemes: the quoted lexeme produced by lexing
quote, `;`, `/`, tab, `*`, quote is the five bytes quote `;` `/` `*` quote
(the tab is dropped by `t_ignore`), yet serializing a map holding that scalar
and reparsing the bytes yields no document at all — the `/*` inside the
serialized quoted string opens a block comment that swallows the rest of the
file, so the token stream ends with the container stack open and `parse_lex`
returns silently. -/
theorem C1_counterexample :
    lexChars [quoteC, ';', '/', tabC, '*', quoteC] =
      [Tok.word [quoteC, ';', '/', '*', quoteC]] ∧
    roundTrip (PyVal.dict [(some ['a'], PyVal.str [quoteC, ';', '/', '*', quoteC])]) =
      .ok Option.none ∧
    roundTrip (PyVal.dict [(some ['a'], PyVal.str [quoteC, ';', '/', '*', quoteC])]) ≠
      .ok (some (PyVal.dict [(some ['a'], PyVal.str [quoteC, ';', '/', '*', quoteC])])) := by
  refine ⟨rfl, rfl, ?_⟩
  intro h
  rw [show roundTrip (PyVal.dict [(some ['a'],
      PyVal.str [quoteC, ';', '/', '*', quoteC])]) =
    (.ok Option.none : Except PyErr (Option PyVal)) from rfl] at h
  simp at h

/-- C1 (amended). Round-trip structural idempotence for safe documents: when
every key is a safe scalar lexeme, keys are distinct within each map, and
every value is a safe scalar string, a nested such map, or a list of safe
scalar strings, parsing the serialized bytes returns the document verbatim —
same keys in insertion order, same nesting kinds, identical scalar text. -/
theorem C1_round_trip (es : List (Option (List Char) × PyVal))
    (h : SafeVal (PyVal.dict es)) :
    roundTrip (PyVal.dict es) = .ok (some (PyVal.dict es)) :=
  roundTrip_safe es h

/-- C1 witness: the round trip at a concrete safe document holding a bare
scalar, a nested map with a quoted scalar, and a two-element list. -/
theorem C1_round_trip_witness :
    roundTrip (PyVal.dict [(some ['a'], PyVal.str ['1']),
      (some ['b'], PyVal.dict [(some ['c'], PyVal.str [quoteC, 'x', ' ', 'y', quoteC])]),
      (some ['d'], PyVal.arr [PyVal.str ['x'], PyVal.str ['y']])]) =
      .ok (some (PyVal.dict [(some ['a'], PyVal.str ['1']),
        (some ['b'], PyVal.dict [(some ['c'], PyVal.str [quoteC, 'x', ' ', 'y', quoteC])]),
        (some ['d'], PyVal.arr [PyVal.str ['x'], PyVal.str ['y']])])) :=
  C1_round_trip _ (by
    refine SafeVal.dict _ ?_ ?_ (by decide)
    · intro p hp
      simp only [List.mem_cons, List.not_mem_nil, or_false] at hp
      rcases hp with rfl | rfl | rfl
      · exact ⟨_, rfl, Or.inl (by decide)⟩
      · exact ⟨_, rfl, Or.inl (by decide)⟩
      · exact ⟨_, rfl, Or.inl (by decide)⟩
    · intro p hp
      simp only [List.mem_cons, List.not_mem_nil, or_false] at hp
      rcases hp with rfl | rfl | rfl
      · exact SafeVal.str _ (Or.inl (by decide))
      · refine SafeVal.dict _ ?_ ?_ (by decide)
        · intro q hq
          simp only [List.mem_cons, List.not_mem_nil, or_false] at hq
          subst hq
          exact ⟨_, rfl, Or.inl (by decide)⟩
        · intro q hq
          simp only [List.mem_cons, List.not_mem_nil, or_false] at hq
          subst hq
          exact SafeVal.str _ (Or.inr ⟨['x', ' ', 'y'], rfl, by decide⟩)
      · refine SafeVal.arr _ ?_
        intro v hv
        simp only [List.mem_cons, List.not_mem_nil, or_false] at hv
        rcases hv with rfl | rfl
        · exact ⟨_, rfl, Or.inl (by decide)⟩
        · exact ⟨_, rfl, Or.inl (by decide)⟩)

/-- C2 (corrected). Unbalanced input does not fail closed: running out of
tokens with the container stack still open returns silently with no document
and no error (`parse_lex` breaks out of its loop without touching the result),
so `\x7b a = 1;` produces neither a document nor an exception. -/
theorem C2_counterexample :
    parseDoc "\x7b a = 1;" = .ok Option.none ∧
    ¬∃ e : PyErr, parseDoc "\x7b a = 1;" = .error e := by
  refine ⟨rfl, ?_⟩
  rintro ⟨e, he⟩
  rw [show parseDoc "\x7b a = 1;" = (.ok Option.none : Except PyErr (Option PyVal))
    from rfl] at he
  simp at he

/-- C2 (amended). End of input with a non-empty container stack is silent: for
every stack and pending register, exhausting the tokens yields `.ok none` — no
document, but also no error; `\x7b a = 1;` therefore parses to nothing
silently. The errors the parser does raise are a CloseBrace on an empty stack
(IndexError) and an Equals with an empty pending register (the invalid
assignment ValueError), as on `\x7d` and `\x7b = 1; \x7d`. -/
theorem C2_unbalanced :
    (∀ (stack : List Frame) (cur : Option (List Char)),
        parseLex [] stack cur = .ok Option.none) ∧
    parseDoc "\x7b a = 1;" = .ok Option.none ∧
    parseDoc "\x7d" = .error PyErr.indexError ∧
    parseDoc "\x7b = 1; \x7d" = .error PyErr.invalidAssignment :=
  ⟨fun _ _ => rfl, rfl, rfl, rfl⟩

/-- C3 (corrected). Serialization is not atomic on error: opening the
destination in mode `wb` truncates it and `Writer.__init__` writes the header
immediately, so when a `None` value raises `Bad variable write!` the file
already holds the (non-empty) header and everything written before the bad
entry — the prior on-disk state is destroyed. Moreover a `None` inside a list
does not raise at all: `write_list_entry` formats it as the word `None`. -/
theorem C3_counterexample :
    exportProject (PyVal.dict [(some ['a'], PyVal.pynone)]) =
      (headerChars, some PyErr.invalidValueType) ∧
    headerChars ≠ [] ∧
    (exportProject (PyVal.dict [(some ['a'], PyVal.arr [PyVal.pynone])])).2 =
      Option.none := by
  refine ⟨rfl, ?_, rfl⟩
  simp [headerChars]

/-- C3 (amended). A `None` map value raises the invalid-value exception, but
the destination file still holds the header that was written before it (and
in general every serialization's bytes start with the header: the truncation
and header write precede any value check); a `None` list element raises
nothing and serializes as the word `None`. -/
theorem C3_serialize_error :
    (∀ (k : Option (List Char)) (rest : List (Option (List Char) × PyVal)),
        exportProject (PyVal.dict ((k, PyVal.pynone) :: rest)) =
          (headerChars, some PyErr.invalidValueType)) ∧
    (∀ d : PyVal, ∃ s, (exportProject d).1 = headerChars ++ s) ∧
    exportProject (PyVal.dict [(some ['a'], PyVal.arr [PyVal.pynone])]) =
      ("// !$*UTF8*$!\n\x7b\n\ta = ( \n\t\tNone, \n\t); \n\x7d\n".data,
        Option.none) := by
  refine ⟨fun k rest => rfl, ?_, rfl⟩
  intro d
  rcases h : recursiveWrite d { indent := 1, condensed := false } with ⟨out, res⟩
  cases res with
  | ok w => exact ⟨out ++ [cbC, nlC], by simp [exportProject, h]⟩
  | error e => exact ⟨out, by simp [exportProject, h]⟩

/-- C4 (corrected). Comment transparency fails when a comment opener directly
follows a word character: the greedy word regex wins over `t_LCOMMENT`, so in
`\x7ba = b/*c*/;\x7d` the text `b/*c*/` lexes as one Word token — the parse
differs from the comment-stripped `\x7ba = b;\x7d` (value `b/*c*/` versus
`b`), and the comment delimiters end up inside the stored scalar. -/
theorem C4_counterexample :
    parseChars ("\x7ba = b/*c*/;\x7d".data) =
      .ok (some (PyVal.dict [(some ['a'], PyVal.str ['b', '/', '*', 'c', '*', '/'])])) ∧
    parseChars ("\x7ba = b;\x7d".data) =
      .ok (some (PyVal.dict [(some ['a'], PyVal.str ['b'])])) ∧
    parseChars ("\x7ba = b/*c*/;\x7d".data) ≠ parseChars ("\x7ba = b;\x7d".data) := by
  refine ⟨rfl, rfl, ?_⟩
  intro h
  rw [show parseChars ("\x7ba = b/*c*/;\x7d".data) =
      .ok (some (PyVal.dict [(some ['a'], PyVal.str ['b', '/', '*', 'c', '*', '/'])]))
      from rfl,
    show parseChars ("\x7ba = b;\x7d".data) =
      .ok (some (PyVal.dict [(some ['a'], PyVal.str ['b'])])) from rfl] at h
  simp at h

/-- C4 (amended). Comment transparency at token boundaries: a block comment
starting where the word rule cannot reach back — with a body free of `/` and
`*` whose last byte is not a word character — contributes no token and leaves
the lexer state unchanged outside comments and strings, and therefore leaves
the parsed document unchanged; a line comment with its body on one line is
skipped in every lexer state. The concrete instance strips a `/* */` comment
from the front of a document. -/
theorem C4_comment_transparency :
    (∀ (st : LexSt) (body rest : List Char), st.comment_open = false →
        st.string_open = false → body.all commentSafeChar = true →
        lastNotWord body = true →
        lexRun st ('/' :: '*' :: (body ++ '*' :: '/' :: rest)) = lexRun st rest) ∧
    (∀ (st : LexSt) (body rest : List Char), body.all (fun d => !(d == nlC)) = true →
        lexRun st ('/' :: '/' :: (body ++ nlC :: rest)) = lexRun st rest) ∧
    (∀ (body rest : List Char), body.all commentSafeChar = true →
        lastNotWord body = true →
        parseChars ('/' :: '*' :: (body ++ '*' :: '/' :: rest)) = parseChars rest) ∧
    parseChars ('/' :: '*' :: (' ' :: '*' :: '/' :: "\x7b a = b; \x7d".data)) =
      .ok (some (PyVal.dict [(some ['a'], PyVal.str ['b'])])) ∧
    parseChars ("\x7b a = b; \x7d".data) =
      .ok (some (PyVal.dict [(some ['a'], PyVal.str ['b'])])) := by
  refine ⟨fun st body rest hc hs hb hl => lexRun_block_comment_chunk st body rest hc hs hb hl,
    fun st body rest hb => lexRun_line_comment_chunk st body rest hb, ?_, rfl, rfl⟩
  intro body rest hb hl
  show parseToks (lexRun cleanSt ('/' :: '*' :: (body ++ '*' :: '/' :: rest))) =
    parseToks (lexRun cleanSt rest)
  rw [lexRun_block_comment_chunk cleanSt body rest rfl rfl hb hl]

/-- C5 (corrected). Not every non-newline whitespace byte survives inside a
quoted string: tab bytes are in `t_ignore` and are skipped before any rule
runs, even while a string is open — lexing quote `a` tab `b` quote yields the
Word `"ab"` with the tab silently dropped, not `"a<tab>b"`. -/
theorem C5_counterexample :
    lexChars [quoteC, 'a', tabC, 'b', quoteC] =
      [Tok.word [quoteC, 'a', 'b', quoteC]] ∧
    lexChars [quoteC, 'a', tabC, 'b', quoteC] ≠
      [Tok.word [quoteC, 'a', tabC, 'b', quoteC]] := by
  refine ⟨rfl, ?_⟩
  intro h
  rw [show lexChars [quoteC, 'a', tabC, 'b', quoteC] =
    [Tok.word [quoteC, 'a', 'b', quoteC]] from rfl] at h
  simp at h

/-- C5 (amended). Whitespace handling: a non-tab, non-newline whitespace byte
(rule `t_SPACE`) is appended verbatim to the accumulator while a quoted
string is open and discarded otherwise; tab and newline bytes are in
`t_ignore` and are skipped in every state, string open or not. A space inside
a quoted lexeme is retained in the emitted Word token. -/
theorem C5_whitespace :
    (∀ (c : Char) (st : LexSt) (cs : List Char), isPySpace c = true →
        (c == tabC || c == nlC) = false → st.string_open = true →
        lexRun st (c :: cs) = lexRun { st with string := st.string ++ [c] } cs) ∧
    (∀ (c : Char) (st : LexSt) (cs : List Char), isPySpace c = true →
        (c == tabC || c == nlC) = false → st.string_open = false →
        lexRun st (c :: cs) = lexRun st cs) ∧
    (∀ (st : LexSt) (cs : List Char), lexRun st (tabC :: cs) = lexRun st cs) ∧
    (∀ (st : LexSt) (cs : List Char), lexRun st (nlC :: cs) = lexRun st cs) ∧
    lexChars [quoteC, 'a', ' ', 'b', quoteC] =
      [Tok.word [quoteC, 'a', ' ', 'b', quoteC]] :=
  ⟨fun _ st cs h h0 hs => lexRun_space_open st cs h h0 hs,
    fun _ st cs h h0 hs => lexRun_space st cs h h0 hs,
    lexRun_tab, lexRun_nl, rfl⟩

/-- C6 (corrected in one detail). The enumerated input — quote, `a`,
backslash, quote, `b`, backslash, `n`, `c`, quote — has nine characters, not
eight (each escape sequence is two bytes); its lexing behaviour is exactly as
claimed: one Word token carrying the bytes verbatim. -/
theorem C6_counterexample :
    lexChars [quoteC, 'a', bslashC, quoteC, 'b', bslashC, 'n', 'c', quoteC] =
      [Tok.word [quoteC, 'a', bslashC, quoteC, 'b', bslashC, 'n', 'c', quoteC]] ∧
    ¬([quoteC, 'a', bslashC, quoteC, 'b', bslashC, 'n', 'c', quoteC].length = 8) :=
  ⟨rfl, by decide⟩

/-- C6 (amended). Quoted-string fidelity: the nine-character input quote, `a`,
backslash-escaped quote, `b`, the two-character backslash-n sequence, `c`,
closing quote lexes to exactly one Word token whose text is those bytes
verbatim — quotes retained, escape sequences not unescaped. -/
theorem C6_quoted_fidelity :
    lexChars [quoteC, 'a', bslashC, quoteC, 'b', bslashC, 'n', 'c', quoteC] =
      [Tok.word [quoteC, 'a', bslashC, quoteC, 'b', bslashC, 'n', 'c', quoteC]] ∧
    [quoteC, 'a', bslashC, quoteC, 'b', bslashC, 'n', 'c', quoteC].length = 9 :=
  ⟨rfl, rfl⟩

/-- C7 (confirmed). Duplicate-key overwrite: `\x7b a = 1; a = 2; \x7d` parses
to a one-key map binding `a` to `2`; in general the ordered-dict assignment
keeps the key set and position on a repeated key, appends fresh keys at the
end, and always leaves the new value retrievable — no collision detection
anywhere. -/
theorem C7_overwrite :
    parseDoc "\x7b a = 1; a = 2; \x7d" =
      .ok (some (PyVal.dict [(some ['a'], PyVal.str ['2'])])) ∧
    (∀ (l : List (Option (List Char) × PyVal)) (k : Option (List Char)) (v : PyVal),
        k ∈ odKeys l → odKeys (odInsert l k v) = odKeys l) ∧
    (∀ (l : List (Option (List Char) × PyVal)) (k : Option (List Char)) (v : PyVal),
        k ∉ odKeys l → odInsert l k v = l ++ [(k, v)]) ∧
    (∀ (l : List (Option (List Char) × PyVal)) (k : Option (List Char)) (v : PyVal),
        odGet (odInsert l k v) k = some v) :=
  ⟨rfl, odKeys_insert_mem, odInsert_fresh, odGet_insert⟩

/-- C8 (corrected). Condensation is broken by nesting: when a condensing map
(`isa = PBXFileReference`) itself contains another condensing map
(`isa = PBXBuildFile`), the inner entry's flag reset switches condensed mode
off for the rest of the outer subtree, so the outer "single line" acquires
internal newlines — the serialized entry below holds four newlines, not the
single one the claim's one-line-plus-one-newline shape implies. -/
theorem C8_counterexample :
    (writeEntries [(some ['k'], PyVal.dict
        [(some "isa".data, PyVal.str "PBXFileReference".data),
          (some ['b'], PyVal.dict [(some "isa".data, PyVal.str "PBXBuildFile".data)]),
          (some ['c'], PyVal.str ['1'])])]
      ⟨1, false⟩).1.count nlC = 4 ∧
    ¬((writeEntries [(some ['k'], PyVal.dict
        [(some "isa".data, PyVal.str "PBXFileReference".data),
          (some ['b'], PyVal.dict [(some "isa".data, PyVal.str "PBXBuildFile".data)]),
          (some ['c'], PyVal.str ['1'])])]
      ⟨1, false⟩).1.count nlC = 1) := by
  constructor
  · rfl
  · intro h
    rw [show (writeEntries [(some ['k'], PyVal.dict
        [(some "isa".data, PyVal.str "PBXFileReference".data),
          (some ['b'], PyVal.dict [(some "isa".data, PyVal.str "PBXBuildFile".data)]),
          (some ['c'], PyVal.str ['1'])])]
      ⟨1, false⟩).1.count nlC = 4 from rfl] at h
    simp at h

/-- C8 (amended). Condensation for subtrees without further condensing maps:
writing a map entry whose safe value map has a condensing `isa` and no
condensing map strictly below emits one line — indentation, the key,
`= \x7b`, a body free of newlines, and `\x7d;` — followed by exactly one
newline; a sibling entry whose map has any other `isa` is emitted as a
multi-line block: a newline directly after the opening-brace header, the body,
and an indented closing line with its own newline. In both cases the writer
state is restored, so the following entries serialize unchanged. -/
theorem C8_condensation (i : Nat) (k : List Char)
    (ve rest : List (Option (List Char) × PyVal))
    (hsv : SafeVal (PyVal.dict ve)) (hnc : NoCondBelow (PyVal.dict ve)) :
    (isaCondensed ve = true →
      ∃ body restOut res,
        writeEntries ((some k, PyVal.dict ve) :: rest) ⟨i, false⟩ =
          (tabs i ++ k ++ " = \x7b ".data ++ body ++ "\x7d; ".data ++ nlC :: restOut,
            res) ∧
        body.all (fun c => !(c == nlC)) = true ∧
        writeEntries rest ⟨i, false⟩ = (restOut, res)) ∧
    (isaCondensed ve = false →
      ∃ body restOut res,
        writeEntries ((some k, PyVal.dict ve) :: rest) ⟨i, false⟩ =
          (tabs i ++ k ++ " = \x7b ".data ++ nlC ::
            (body ++ tabs i ++ "\x7d; ".data ++ nlC :: restOut), res) ∧
        writeEntries rest ⟨i, false⟩ = (restOut, res)) := by
  have hek : ∀ p ∈ ve, ∃ k2, p.1 = some k2 ∧ SafeScalar k2 := by
    cases hsv with
    | dict _ h1 _ _ => exact h1
  have hev : ∀ p ∈ ve, SafeVal p.2 := by
    cases hsv with
    | dict _ _ h2 _ => exact h2
  have hbe : ∀ p ∈ ve, NoCondBelow p.2 := by
    cases hnc with
    | dict _ h1 _ => exact h1
  have hbd : ∀ p ∈ ve, ∀ ve2, p.2 = PyVal.dict ve2 → isaCondensed ve2 = false := by
    cases hnc with
    | dict _ _ h2 => exact h2
  rcases hre : writeEntries rest ⟨i, false⟩ with ⟨restOut, res⟩
  constructor
  · intro hcd
    obtain ⟨body, hWI, hCI⟩ :=
      writeNoCond (entSize ve) ve le_rfl hek hev hbe hbd ⟨i + 1, true⟩
    refine ⟨body, restOut, res, ?_, ?_, rfl⟩
    · simp only [writeEntries, hcd, eq_self_iff_true, if_true]
      rw [show recursiveWrite (PyVal.dict ve) (⟨i + 1, true⟩ : Writer) =
        writeEntries ve ⟨i + 1, true⟩ from rfl, hWI]
      simp only [Nat.add_sub_cancel]
      rw [hre]
      simp [wIndent, wNewline, fmtKey, pyFormat, optToVal, List.append_assoc]
    · have h1 := hCI rfl
      rw [List.all_eq_true] at h1 ⊢
      intro c hc
      have h2 := h1 c hc
      simp only [Bool.and_eq_true] at h2
      exact h2.1
  · intro hcd
    obtain ⟨body, hWI, _⟩ :=
      writeNoCond (entSize ve) ve le_rfl hek hev hbe hbd ⟨i + 1, false⟩
    refine ⟨body, restOut, res, ?_, rfl⟩
    simp only [writeEntries, hcd, Bool.false_eq_true, if_false, List.nil_append]
    rw [show recursiveWrite (PyVal.dict ve) (⟨i + 1, false⟩ : Writer) =
      writeEntries ve ⟨i + 1, false⟩ from rfl, hWI]
    simp only [Nat.add_sub_cancel]
    rw [hre]
    simp [wIndent, wNewline, fmtKey, pyFormat, optToVal, List.append_assoc]

/-- C8 witness: the condensed one-line shape at a concrete file-reference
map. -/
theorem C8_condensation_witness :
    ∃ body restOut res,
      writeEntries [(some ['k'],
          PyVal.dict [(some "isa".data, PyVal.str "PBXFileReference".data)])]
          ⟨1, false⟩ =
        (tabs 1 ++ ['k'] ++ " = \x7b ".data ++ body ++ "\x7d; ".data ++ nlC :: restOut,
          res) ∧
      body.all (fun c => !(c == nlC)) = true ∧
      writeEntries ([] : List (Option (List Char) × PyVal)) ⟨1, false⟩ =
        (restOut, res) :=
  (C8_condensation 1 ['k'] [(some "isa".data, PyVal.str "PBXFileReference".data)] []
    (SafeVal.dict _
      (by
        intro p hp
        simp only [List.mem_cons, List.not_mem_nil, or_false] at hp
        subst hp
        exact ⟨_, rfl, Or.inl (by decide)⟩)
      (by
        intro p hp
        simp only [List.mem_cons, List.not_mem_nil, or_false] at hp
        subst hp
        exact SafeVal.str _ (Or.inl (by decide)))
      (by decide))
    (NoCondBelow.dict _
      (by
        intro p hp
        simp only [List.mem_cons, List.not_mem_nil, or_false] at hp
        subst hp
        exact NoCondBelow.str _)
      (by
        intro p hp ve2 he
        simp only [List.mem_cons, List.not_mem_nil, or_false] at hp
        subst hp
        exact PyVal.noConfusion he))).1 (by decide)

/-- C9 (confirmed). The Equals token is a no-op whenever the pending register
holds a non-empty key, so `= ` is optional in assignments: for all safe scalar
keys and values, `\x7b k v; \x7d` and `\x7b k = v; \x7d` lex and parse to the
same one-entry document. -/
theorem C9_equals_optional :
    (∀ (s : List Char) (ts : List Tok) (stack : List Frame), s.isEmpty = false →
        parseLex (Tok.equals :: ts) stack (some s) = parseLex ts stack (some s)) ∧
    (∀ (k v : List Char), SafeScalar k → SafeScalar v →
        parseChars ('\x7b' :: ' ' :: (k ++ ' ' :: (v ++ [';', ' ', '\x7d']))) =
          parseChars ('\x7b' :: ' ' :: (k ++ ' ' :: '=' :: ' ' :: (v ++ [';', ' ', '\x7d']))) ∧
        parseChars ('\x7b' :: ' ' :: (k ++ ' ' :: '=' :: ' ' :: (v ++ [';', ' ', '\x7d']))) =
          .ok (some (PyVal.dict [(some k, PyVal.str v)]))) := by
  refine ⟨fun s ts stack hne => pstep_equals hne ts stack, ?_⟩
  intro k v hk hv
  have hkne : k.isEmpty = false := by
    cases hk2 : k with
    | nil => exact absurd hk2 (SafeScalar_ne_nil hk)
    | cons a t => rfl
  have lex1 : lexChars ('\x7b' :: ' ' :: (k ++ ' ' :: (v ++ [';', ' ', '\x7d']))) =
      [Tok.lbrace, Tok.word k, Tok.word v, Tok.semicolon, Tok.rbrace] := by
    rw [show lexChars ('\x7b' :: ' ' :: (k ++ ' ' :: (v ++ [';', ' ', '\x7d']))) =
      lexRun cleanSt ('\x7b' :: ' ' :: (k ++ ' ' :: (v ++ [';', ' ', '\x7d']))) from rfl]
    rw [lexRun_lbrC _ _ rfl rfl, lexRun_sp _ _ rfl]
    rw [lexRun_scalar_chunk cleanSt hk (hnw_cons _ (by decide)) rfl rfl]
    rw [lexRun_sp _ _ rfl]
    rw [lexRun_scalar_chunk cleanSt hv (hnw_cons _ (by decide)) rfl rfl]
    rw [lexRun_semiC _ _ rfl rfl, lexRun_sp _ _ rfl, lexRun_rbrC _ _ rfl rfl]
    rfl
  have lex2 : lexChars ('\x7b' :: ' ' :: (k ++ ' ' :: '=' :: ' ' :: (v ++ [';', ' ', '\x7d']))) =
      [Tok.lbrace, Tok.word k, Tok.equals, Tok.word v, Tok.semicolon, Tok.rbrace] := by
    rw [show lexChars ('\x7b' :: ' ' :: (k ++ ' ' :: '=' :: ' ' :: (v ++ [';', ' ', '\x7d']))) =
      lexRun cleanSt ('\x7b' :: ' ' :: (k ++ ' ' :: '=' :: ' ' :: (v ++ [';', ' ', '\x7d'])))
      from rfl]
    rw [lexRun_lbrC _ _ rfl rfl, lexRun_sp _ _ rfl]
    rw [lexRun_scalar_chunk cleanSt hk (hnw_cons _ (by decide)) rfl rfl]
    rw [lexRun_sp _ _ rfl, lexRun_eqC _ _ rfl rfl, lexRun_sp _ _ rfl]
    rw [lexRun_scalar_chunk cleanSt hv (hnw_cons _ (by decide)) rfl rfl]
    rw [lexRun_semiC _ _ rfl rfl, lexRun_sp _ _ rfl, lexRun_rbrC _ _ rfl rfl]
    rfl
  have parse1 : parseToks [Tok.lbrace, Tok.word k, Tok.word v, Tok.semicolon,
      Tok.rbrace] = .ok (some (PyVal.dict [(some k, PyVal.str v)])) := by
    show parseLex [Tok.lbrace, Tok.word k, Tok.word v, Tok.semicolon, Tok.rbrace]
      [] Option.none = _
    rw [show parseLex [Tok.lbrace, Tok.word k, Tok.word v, Tok.semicolon, Tok.rbrace]
        [] Option.none =
      parseLex [Tok.word k, Tok.word v, Tok.semicolon, Tok.rbrace]
        [⟨.cdict [], Option.none⟩] Option.none from rfl]
    rw [pstep_word_pending, pstep_word_store hkne, pstep_semi]
    rfl
  have parse2 : parseToks [Tok.lbrace, Tok.word k, Tok.equals, Tok.word v,
      Tok.semicolon, Tok.rbrace] = .ok (some (PyVal.dict [(some k, PyVal.str v)])) := by
    show parseLex [Tok.lbrace, Tok.word k, Tok.equals, Tok.word v, Tok.semicolon,
      Tok.rbrace] [] Option.none = _
    rw [show parseLex [Tok.lbrace, Tok.word k, Tok.equals, Tok.word v, Tok.semicolon,
        Tok.rbrace] [] Option.none =
      parseLex [Tok.word k, Tok.equals, Tok.word v, Tok.semicolon, Tok.rbrace]
        [⟨.cdict [], Option.none⟩] Option.none from rfl]
    rw [pstep_word_pending, pstep_equals hkne, pstep_word_store hkne, pstep_semi]
    rfl
  constructor
  · rw [show parseChars ('\x7b' :: ' ' :: (k ++ ' ' :: (v ++ [';', ' ', '\x7d']))) =
      parseToks (lexChars ('\x7b' :: ' ' :: (k ++ ' ' :: (v ++ [';', ' ', '\x7d']))))
      from rfl]
    rw [show parseChars ('\x7b' :: ' ' :: (k ++ ' ' :: '=' :: ' ' :: (v ++ [';', ' ', '\x7d']))) =
      parseToks (lexChars ('\x7b' :: ' ' ::
        (k ++ ' ' :: '=' :: ' ' :: (v ++ [';', ' ', '\x7d'])))) from rfl]
    rw [lex1, lex2, parse1, parse2]
  · rw [show parseChars ('\x7b' :: ' ' :: (k ++ ' ' :: '=' :: ' ' :: (v ++ [';', ' ', '\x7d']))) =
      parseToks (lexChars ('\x7b' :: ' ' ::
        (k ++ ' ' :: '=' :: ' ' :: (v ++ [';', ' ', '\x7d'])))) from rfl]
    rw [lex2, parse2]

/-- C9 witness: the two spellings agree at the concrete key `a`, value `1`. -/
theorem C9_equals_optional_witness :
    parseChars ('\x7b' :: ' ' :: (['a'] ++ ' ' :: (['1'] ++ [';', ' ', '\x7d']))) =
      parseChars ('\x7b' :: ' ' :: (['a'] ++ ' ' :: '=' :: ' ' ::
        (['1'] ++ [';', ' ', '\x7d']))) ∧
    parseChars ('\x7b' :: ' ' :: (['a'] ++ ' ' :: '=' :: ' ' ::
        (['1'] ++ [';', ' ', '\x7d']))) =
      .ok (some (PyVal.dict [(some ['a'], PyVal.str ['1'])])) :=
  (C9_equals_optional.2 ['a'] ['1'] (Or.inl (by decide)) (Or.inl (by decide)))

/-- C10 (confirmed). Inside a List context a second adjacent Word is never
appended as an element: with the pending register non-empty and an array on
top of the stack, a Word token makes the parser attempt `obj[cur] = value` on
a list and the parse fails with TypeError; concretely `\x7b x = ( a b ); \x7d`
fails with TypeError, and at top level `( a b )` fails with IndexError when
the first CloseParen pops the empty remainder of the stack. -/
theorem C10_list_adjacent_words :
    (∀ (w s : List Char) (ts : List Tok) (l : List PyVal)
        (att : Option (Option (List Char))) (stk : List Frame), s.isEmpty = false →
        parseLex (Tok.word w :: ts) (⟨.carr l, att⟩ :: stk) (some s) =
          .error PyErr.typeError) ∧
    parseDoc "\x7b x = ( a b ); \x7d" = .error PyErr.typeError ∧
    parseDoc "( a b )" = .error PyErr.indexError := by
  refine ⟨?_, rfl, rfl⟩
  intro w s ts l att stk hne
  simp [parseLex, falsy, hne]

end PyXcode
